import Mathlib

set_option maxHeartbeats 1000000

/-
Verification of the Grover amplitude-amplification engine from
`grover_interactive.py`.

The program builds a Qiskit circuit out of Hadamard (`qc.h`), Pauli-X
(`qc.x`) and multi-controlled-X (`qc.mcx`) gates and simulates it on the
2^n-dimensional state vector.  All amplitudes that ever occur are elements
of the ring ℚ[√2] (the Hadamard gate scales by 1/√2 = √2/2 and everything
else is a signed permutation), so the simulator semantics is embedded
exactly over `R2`, the ring of numbers `a + b·√2` with `a b : ℚ`.

Basis states are indexed by `Fin n → Bool` (`b i` = value of qubit `i`),
matching Qiskit's little-endian convention: bit `i` of the integer index
is qubit `i`.

Circuit construction (`apply_oracle`, `apply_diffusion`,
`run_grovers_algorithm`) is embedded as production of the gate list that
the Python functions append to `qc`, and `applyOps` is the simulator:
it fails (returns `none`) exactly where Qiskit would raise `CircuitError`:
a gate addressed to a qubit index outside `[0, n)`, or — for `mcx`, which
the source always calls as `qc.mcx(list(range(n - 1)), n - 1)` — a control
list with zero entries (n < 2), which `MCXGate`/`ControlledGate` rejects.
-/

/-- The ring ℚ[√2]: `ra + rb·√2`.  Every amplitude produced by the circuit
lies in this ring, so gate application can be evaluated exactly. -/
structure R2 where
  ra : ℚ
  rb : ℚ
deriving DecidableEq

instance : CommRing R2 where
  add p q := ⟨p.ra + q.ra, p.rb + q.rb⟩
  zero := ⟨0, 0⟩
  neg p := ⟨-p.ra, -p.rb⟩
  mul p q := ⟨p.ra * q.ra + 2 * (p.rb * q.rb), p.ra * q.rb + p.rb * q.ra⟩
  one := ⟨1, 0⟩
  nsmul k p := ⟨(k : ℚ) * p.ra, (k : ℚ) * p.rb⟩
  nsmul_zero := by
    rintro ⟨a1, b1⟩
    refine congrArg₂ R2.mk ?_ ?_
    · show ((0 : ℕ) : ℚ) * a1 = 0
      norm_num
    · show ((0 : ℕ) : ℚ) * b1 = 0
      norm_num
  nsmul_succ := by
    rintro k ⟨a1, b1⟩
    refine congrArg₂ R2.mk ?_ ?_
    · show ((k + 1 : ℕ) : ℚ) * a1 = (k : ℚ) * a1 + a1
      push_cast
      ring
    · show ((k + 1 : ℕ) : ℚ) * b1 = (k : ℚ) * b1 + b1
      push_cast
      ring
  zsmul k p := ⟨(k : ℚ) * p.ra, (k : ℚ) * p.rb⟩
  zsmul_zero' := by
    rintro ⟨a1, b1⟩
    refine congrArg₂ R2.mk ?_ ?_
    · show ((0 : ℤ) : ℚ) * a1 = 0
      norm_num
    · show ((0 : ℤ) : ℚ) * b1 = 0
      norm_num
  zsmul_succ' := by
    rintro k ⟨a1, b1⟩
    refine congrArg₂ R2.mk ?_ ?_
    · show ((Int.ofNat k.succ : ℤ) : ℚ) * a1 = ((Int.ofNat k : ℤ) : ℚ) * a1 + a1
      push_cast [Int.ofNat_eq_natCast]
      ring
    · show ((Int.ofNat k.succ : ℤ) : ℚ) * b1 = ((Int.ofNat k : ℤ) : ℚ) * b1 + b1
      push_cast [Int.ofNat_eq_natCast]
      ring
  zsmul_neg' := by
    rintro k ⟨a1, b1⟩
    refine congrArg₂ R2.mk ?_ ?_
    · show ((Int.negSucc k : ℤ) : ℚ) * a1 = -(((Int.ofNat k.succ : ℤ) : ℚ) * a1)
      push_cast [Int.cast_negSucc, Int.ofNat_eq_natCast]
      ring
    · show ((Int.negSucc k : ℤ) : ℚ) * b1 = -(((Int.ofNat k.succ : ℤ) : ℚ) * b1)
      push_cast [Int.cast_negSucc, Int.ofNat_eq_natCast]
      ring
  add_assoc := by
    rintro ⟨a1, b1⟩ ⟨a2, b2⟩ ⟨a3, b3⟩
    refine congrArg₂ R2.mk ?_ ?_
    · show a1 + a2 + a3 = a1 + (a2 + a3)
      ring
    · show b1 + b2 + b3 = b1 + (b2 + b3)
      ring
  zero_add := by
    rintro ⟨a1, b1⟩
    refine congrArg₂ R2.mk ?_ ?_
    · show 0 + a1 = a1
      ring
    · show 0 + b1 = b1
      ring
  add_zero := by
    rintro ⟨a1, b1⟩
    refine congrArg₂ R2.mk ?_ ?_
    · show a1 + 0 = a1
      ring
    · show b1 + 0 = b1
      ring
  add_comm := by
    rintro ⟨a1, b1⟩ ⟨a2, b2⟩
    refine congrArg₂ R2.mk ?_ ?_
    · show a1 + a2 = a2 + a1
      ring
    · show b1 + b2 = b2 + b1
      ring
  neg_add_cancel := by
    rintro ⟨a1, b1⟩
    refine congrArg₂ R2.mk ?_ ?_
    · show -a1 + a1 = 0
      ring
    · show -b1 + b1 = 0
      ring
  left_distrib := by
    rintro ⟨a1, b1⟩ ⟨a2, b2⟩ ⟨a3, b3⟩
    refine congrArg₂ R2.mk ?_ ?_
    · show a1 * (a2 + a3) + 2 * (b1 * (b2 + b3)) = a1 * a2 + 2 * (b1 * b2) + (a1 * a3 + 2 * (b1 * b3))
      ring
    · show a1 * (b2 + b3) + b1 * (a2 + a3) = a1 * b2 + b1 * a2 + (a1 * b3 + b1 * a3)
      ring
  right_distrib := by
    rintro ⟨a1, b1⟩ ⟨a2, b2⟩ ⟨a3, b3⟩
    refine congrArg₂ R2.mk ?_ ?_
    · show (a1 + a2) * a3 + 2 * ((b1 + b2) * b3) = a1 * a3 + 2 * (b1 * b3) + (a2 * a3 + 2 * (b2 * b3))
      ring
    · show (a1 + a2) * b3 + (b1 + b2) * a3 = a1 * b3 + b1 * a3 + (a2 * b3 + b2 * a3)
      ring
  zero_mul := by
    rintro ⟨a1, b1⟩
    refine congrArg₂ R2.mk ?_ ?_
    · show 0 * a1 + 2 * (0 * b1) = 0
      ring
    · show 0 * b1 + 0 * a1 = 0
      ring
  mul_zero := by
    rintro ⟨a1, b1⟩
    refine congrArg₂ R2.mk ?_ ?_
    · show a1 * 0 + 2 * (b1 * 0) = 0
      ring
    · show a1 * 0 + b1 * 0 = 0
      ring
  mul_assoc := by
    rintro ⟨a1, b1⟩ ⟨a2, b2⟩ ⟨a3, b3⟩
    refine congrArg₂ R2.mk ?_ ?_
    · show (a1 * a2 + 2 * (b1 * b2)) * a3 + 2 * ((a1 * b2 + b1 * a2) * b3)
        = a1 * (a2 * a3 + 2 * (b2 * b3)) + 2 * (b1 * (a2 * b3 + b2 * a3))
      ring
    · show (a1 * a2 + 2 * (b1 * b2)) * b3 + (a1 * b2 + b1 * a2) * a3
        = a1 * (a2 * b3 + b2 * a3) + b1 * (a2 * a3 + 2 * (b2 * b3))
      ring
  one_mul := by
    rintro ⟨a1, b1⟩
    refine congrArg₂ R2.mk ?_ ?_
    · show 1 * a1 + 2 * (0 * b1) = a1
      ring
    · show 1 * b1 + 0 * a1 = b1
      ring
  mul_one := by
    rintro ⟨a1, b1⟩
    refine congrArg₂ R2.mk ?_ ?_
    · show a1 * 1 + 2 * (b1 * 0) = a1
      ring
    · show a1 * 0 + b1 * 1 = b1
      ring
  mul_comm := by
    rintro ⟨a1, b1⟩ ⟨a2, b2⟩
    refine congrArg₂ R2.mk ?_ ?_
    · show a1 * a2 + 2 * (b1 * b2) = a2 * a1 + 2 * (b2 * b1)
      ring
    · show a1 * b2 + b1 * a2 = a2 * b1 + b2 * a1
      ring
  natCast k := ⟨(k : ℚ), 0⟩
  natCast_zero := by
    refine congrArg₂ R2.mk ?_ ?_
    · show ((0 : ℕ) : ℚ) = 0
      norm_num
    · rfl
  natCast_succ := by
    intro k
    refine congrArg₂ R2.mk ?_ ?_
    · show ((k + 1 : ℕ) : ℚ) = (k : ℚ) + 1
      push_cast
      ring
    · show (0 : ℚ) = 0 + 0
      norm_num
  intCast k := ⟨(k : ℚ), 0⟩
  intCast_ofNat := by
    intro k
    refine congrArg₂ R2.mk ?_ ?_
    · show ((Int.ofNat k : ℤ) : ℚ) = (k : ℚ)
      simp
    · rfl
  intCast_negSucc := by
    intro k
    refine congrArg₂ R2.mk ?_ ?_
    · show ((Int.negSucc k : ℤ) : ℚ) = -((k + 1 : ℕ) : ℚ)
      simp [Int.cast_negSucc]
    · show (0 : ℚ) = -0
      norm_num

/-- `1/√2 = √2/2`, the Hadamard normalisation factor, as an element of ℚ[√2]. -/
def R2.s : R2 := ⟨0, 1 / 2⟩

/-- Embedding of the rationals into ℚ[√2]. -/
def R2.ofRat (q : ℚ) : R2 := ⟨q, 0⟩

/-- Basis-state labels for `n` qubits: `b i` is the value of qubit `i`
(= bit `i` of the Qiskit integer index, little-endian). -/
abbrev QBits (n : ℕ) := Fin n → Bool

/-- A state vector: one exact amplitude per basis state. -/
abbrev State (n : ℕ) := QBits n → R2

/-- Semantics of `qc.h(q)`: Hadamard on qubit `q`.  On every index pair
differing only in bit `q` it maps `(a₀, a₁)` to `((a₀+a₁)/√2, (a₀−a₁)/√2)`. -/
def hGate {n : ℕ} (q : Fin n) (v : State n) : State n := fun b =>
  if b q then R2.s * (v (Function.update b q false) - v (Function.update b q true))
  else R2.s * (v (Function.update b q false) + v (Function.update b q true))

/-- Semantics of `qc.x(q)`: swap the amplitudes of every index pair
differing only in bit `q`. -/
def xGate {n : ℕ} (q : Fin n) (v : State n) : State n := fun b =>
  v (Function.update b q (!b q))

/-- Semantics of `qc.mcx(controls, t)` with `controls` = all qubits other
than `t`: flip bit `t` of every index whose control bits are all 1. -/
def mcxGate {n : ℕ} (t : Fin n) (v : State n) : State n := fun b =>
  if ∀ i, i ≠ t → b i = true then v (Function.update b t (!b t)) else v b

/-- One gate instruction as appended to the Qiskit circuit by the source:
`h q`/`x q` address qubit `q`; `mcx` is always called by the source as
`qc.mcx(list(range(n_qubits - 1)), n_qubits - 1)`. -/
inductive Op where
  | h (q : ℕ)
  | x (q : ℕ)
  | mcx
deriving DecidableEq

/-- Run one instruction on the simulator.  `none` models a Qiskit error:
a qubit index outside `[0, n)` for `h`/`x`; for `mcx`, a control list
`list(range(n - 1))` with fewer than one entry (n < 2), since
`MCXGate`/`ControlledGate` rejects zero control qubits with `CircuitError`. -/
def applyOp (n : ℕ) : Op → State n → Option (State n)
  | Op.h q, v => if hq : q < n then some (hGate ⟨q, hq⟩ v) else none
  | Op.x q, v => if hq : q < n then some (xGate ⟨q, hq⟩ v) else none
  | Op.mcx, v =>
      if hn : 1 < n then some (mcxGate ⟨n - 1, Nat.sub_lt (Nat.zero_lt_of_lt hn) Nat.one_pos⟩ v)
      else none

/-- Run a gate list left to right, propagating failure. -/
def applyOps (n : ℕ) : List Op → State n → Option (State n)
  | [], v => some v
  | op :: l, v => (applyOp n op v).bind (applyOps n l)

/-- Total variant of `applyOp` (identity on out-of-range gates); it agrees
with `applyOp` on well-formed instructions and exists only to phrase the
pure-function lemmas. -/
def applyOpP (n : ℕ) (op : Op) (v : State n) : State n :=
  match op with
  | Op.h q => if hq : q < n then hGate ⟨q, hq⟩ v else v
  | Op.x q => if hq : q < n then xGate ⟨q, hq⟩ v else v
  | Op.mcx =>
      if hn : 1 < n then mcxGate ⟨n - 1, Nat.sub_lt (Nat.zero_lt_of_lt hn) Nat.one_pos⟩ v else v

/-- Well-formedness of one instruction for an `n`-qubit register. -/
def opWF (n : ℕ) : Op → Prop
  | Op.h q => q < n
  | Op.x q => q < n
  | Op.mcx => 1 < n

/-- Pure left fold of a gate list. -/
def opFold (n : ℕ) (l : List Op) (v : State n) : State n :=
  l.foldl (fun w op => applyOpP n op w) v

/-- `target_bits = [int(bit) for bit in target_state[::-1]]`: the target
string reversed, so that entry `i` is the bit for qubit `i`. -/
def tBits (target_state : String) : List Bool :=
  target_state.data.reverse.map (fun c => c == '1')

/-- The X-gates emitted by the loop
`for i, bit in enumerate(target_bits): if bit == 0: qc.x(i)`. -/
def xFlips (target_state : String) : List Op :=
  (tBits target_state).enum.filterMap (fun p => if p.2 then none else some (Op.x p.1))

/-- Gate list appended to the circuit by `apply_oracle(qc, n_qubits,
target_state)`: X on every 0-bit of the target, the H–MCX–H realisation of
a multi-controlled Z, then the X-gates again. -/
def apply_oracle (n_qubits : ℕ) (target_state : String) : List Op :=
  xFlips target_state
    ++ [Op.h (n_qubits - 1), Op.mcx, Op.h (n_qubits - 1)]
    ++ xFlips target_state

/-- Gate list appended by `apply_diffusion(qc, n_qubits)`:
H on all qubits, X on all qubits, H–MCX–H on the last qubit, X on all
qubits, H on all qubits. -/
def apply_diffusion (n_qubits : ℕ) : List Op :=
  (List.range n_qubits).map Op.h
    ++ (List.range n_qubits).map Op.x
    ++ [Op.h (n_qubits - 1), Op.mcx, Op.h (n_qubits - 1)]
    ++ (List.range n_qubits).map Op.x
    ++ (List.range n_qubits).map Op.h

/-- The full circuit built by `run_grovers_algorithm` before `measure_all`:
an initial Hadamard layer, then `iterations` repetitions of oracle followed
by diffusion. -/
def run_grovers_algorithm (n_qubits : ℕ) (target_state : String) (iterations : ℕ) : List Op :=
  (List.range n_qubits).map Op.h
    ++ List.flatten (List.replicate iterations
        (apply_oracle n_qubits target_state ++ apply_diffusion n_qubits))

/-- Qiskit's initial state |0…0⟩. -/
def initState (n : ℕ) : State n := fun b => if ∀ i, b i = false then 1 else 0

/-- The pre-measurement state vector of a run of `run_grovers_algorithm`
(`none` if circuit construction would raise). -/
def runState (n : ℕ) (target_state : String) (iterations : ℕ) : Option (State n) :=
  applyOps n (run_grovers_algorithm n target_state iterations) (initState n)

/-- Qubit values of the marked basis state: qubit `i` carries bit `i` of
the reversed target string (last character ↦ qubit 0). -/
def tFn (n : ℕ) (target_state : String) : QBits n := fun i =>
  (tBits target_state).getD i.val false

/-- The mean amplitude of a state vector. -/
def meanAmp (n : ℕ) (v : State n) : R2 :=
  R2.ofRat (1 / 2 ^ n) * ∑ b : QBits n, v b

/-- Modelled from the spec: the closed-form diffusion
`new_amp[i] = 2*mean(amp) − amp[i]` ("reflection of every amplitude about
the mean"), stated in §4.4 as the net effect of `apply_diffusion`. -/
def specReflect (n : ℕ) (v : State n) : State n := fun b =>
  2 * meanAmp n v - v b

/-- Total probability: the sum of squared amplitudes (all amplitudes are
real, being elements of ℚ[√2] ⊂ ℝ). -/
def sumSq (n : ℕ) (v : State n) : R2 := ∑ b : QBits n, v b * v b

/-- The basis state vector concentrated on label `c`. -/
def basisState {n : ℕ} (c : QBits n) : State n := fun b => if b = c then 1 else 0

/-- Pure fold of Hadamard gates over a list of qubits. -/
def hFold {n : ℕ} (l : List (Fin n)) (v : State n) : State n :=
  l.foldl (fun w q => hGate q w) v

/-- Pure fold of X gates over a list of qubits. -/
def xFold {n : ℕ} (l : List (Fin n)) (v : State n) : State n :=
  l.foldl (fun w q => xGate q w) v

/-- Sign kernel of a partial Hadamard transform: the product over the
processed qubits `L` of `(−1)^(b i · c i)`. -/
def signProd {n : ℕ} (L : List (Fin n)) (c bb : QBits n) : R2 :=
  (L.map (fun i => if bb i && c i then (-1 : R2) else 1)).prod

/-- The image of the basis state `c` under Hadamards on the qubits in `L`:
amplitude `s^|L| · signProd` on the labels agreeing with `c` off `L`. -/
def kerG {n : ℕ} (L : List (Fin n)) (c : QBits n) : State n := fun b =>
  R2.s ^ L.length * signProd L c b * (if ∀ i, i ∉ L → b i = c i then 1 else 0)

/-- Integer index of a basis-state label (bit `i` of the index = qubit `i`). -/
def bitsToIdx {n : ℕ} (b : QBits n) : ℕ := ∑ i : Fin n, if b i then 2 ^ i.val else 0

/-- The number denoted by the target string read in the usual way
(first character most significant). -/
def stringIdx (target_state : String) : ℕ :=
  target_state.data.foldl (fun acc c => 2 * acc + (if c = '1' then 1 else 0)) 0

/-- The target string contains only the characters '0' and '1'. -/
def isBinary (target_state : String) : Prop := ∀ c ∈ target_state.data, c = '0' ∨ c = '1'

/-! ### Basic facts about ℚ[√2] -/

theorem R2.s_mul_s : R2.s * R2.s = R2.ofRat (1 / 2) := by
  refine congrArg₂ R2.mk ?_ ?_
  · show (0 : ℚ) * 0 + 2 * (1 / 2 * (1 / 2)) = 1 / 2
    norm_num
  · show (0 : ℚ) * (1 / 2) + 1 / 2 * 0 = 0
    norm_num

theorem R2.two_eq_ofRat : (2 : R2) = R2.ofRat 2 := by
  refine congrArg₂ R2.mk ?_ ?_
  · show ((2 : ℕ) : ℚ) = 2
    norm_num
  · rfl

theorem R2.ofRat_add (p q : ℚ) : R2.ofRat (p + q) = R2.ofRat p + R2.ofRat q := by
  refine congrArg₂ R2.mk ?_ ?_
  · show p + q = p + q
    rfl
  · show (0 : ℚ) = 0 + 0
    norm_num

theorem R2.ofRat_mul (p q : ℚ) : R2.ofRat (p * q) = R2.ofRat p * R2.ofRat q := by
  refine congrArg₂ R2.mk ?_ ?_
  · show p * q = p * q + 2 * (0 * 0)
    ring
  · show (0 : ℚ) = p * 0 + 0 * q
    ring

theorem R2.two_s_mul_s : (2 : R2) * (R2.s * R2.s) = 1 := by
  rw [R2.s_mul_s, R2.two_eq_ofRat, ← R2.ofRat_mul]
  norm_num
  rfl

theorem R2.ofRat_zero : R2.ofRat 0 = 0 := rfl

theorem R2.ofRat_one : R2.ofRat 1 = 1 := rfl

theorem R2.ofRat_pow (p : ℚ) (k : ℕ) : R2.ofRat (p ^ k) = R2.ofRat p ^ k := by
  induction k with
  | zero => simp [R2.ofRat_one]
  | succ m ih =>
    rw [pow_succ, pow_succ, R2.ofRat_mul, ih]

theorem R2.ofRat_natCast (k : ℕ) : ((k : ℕ) : R2) = R2.ofRat (k : ℚ) := rfl

theorem R2.ofRat_inj {p q : ℚ} (h : R2.ofRat p = R2.ofRat q) : p = q :=
  congrArg R2.ra h

theorem R2.s_pow_two_mul (k : ℕ) : R2.s ^ (2 * k) = R2.ofRat ((1 / 2) ^ k) := by
  rw [pow_mul, R2.ofRat_pow]
  congr 1
  rw [pow_two, R2.s_mul_s]

/-! ### Single-gate algebra -/

theorem xGate_xGate {n : ℕ} (q : Fin n) (v : State n) : xGate q (xGate q v) = v := by
  funext b
  show v (Function.update (Function.update b q (!b q)) q (!(Function.update b q (!b q)) q)) = v b
  rw [Function.update_same, Function.update_idem, Bool.not_not]
  rw [show Function.update b q (b q) = b from Function.update_eq_self q b]

theorem hGate_hGate {n : ℕ} (q : Fin n) (v : State n) : hGate q (hGate q v) = v := by
  have h2s := R2.two_s_mul_s
  funext b
  by_cases hb : b q
  · show (if b q then _ else _) = v b
    rw [if_pos hb]
    have hF : hGate q v (Function.update b q false) =
        R2.s * (v (Function.update b q false) + v (Function.update b q true)) := by
      show (if Function.update b q false q then _ else _) = _
      rw [Function.update_same, if_neg (by simp), Function.update_idem, Function.update_idem]
    have hT : hGate q v (Function.update b q true) =
        R2.s * (v (Function.update b q false) - v (Function.update b q true)) := by
      show (if Function.update b q true q then _ else _) = _
      rw [Function.update_same, if_pos rfl, Function.update_idem, Function.update_idem]
    rw [hF, hT]
    have hbv : Function.update b q true = b := by
      rw [← hb]
      exact Function.update_eq_self q b
    rw [hbv]
    linear_combination (v b) * h2s
  · show (if b q then _ else _) = v b
    rw [if_neg hb]
    have hF : hGate q v (Function.update b q false) =
        R2.s * (v (Function.update b q false) + v (Function.update b q true)) := by
      show (if Function.update b q false q then _ else _) = _
      rw [Function.update_same, if_neg (by simp), Function.update_idem, Function.update_idem]
    have hT : hGate q v (Function.update b q true) =
        R2.s * (v (Function.update b q false) - v (Function.update b q true)) := by
      show (if Function.update b q true q then _ else _) = _
      rw [Function.update_same, if_pos rfl, Function.update_idem, Function.update_idem]
    rw [hF, hT]
    have hbv : Function.update b q false = b := by
      rw [show false = b q by simp [hb]]
      exact Function.update_eq_self q b
    rw [hbv]
    linear_combination (v b) * h2s

theorem hGate_comm {n : ℕ} {p q : Fin n} (hpq : p ≠ q) (v : State n) :
    hGate p (hGate q v) = hGate q (hGate p v) := by
  have hqp : q ≠ p := Ne.symm hpq
  funext b
  by_cases hp : b p <;> by_cases hq : b q <;>
    simp [hGate, Function.update_noteq hqp, Function.update_noteq hpq, hp, hq,
      Function.update_comm hpq] <;>
    ring

theorem mcz_sem {n : ℕ} (t : Fin n) (v : State n) :
    hGate t (mcxGate t (hGate t v)) = fun b => if ∀ i, b i = true then -(v b) else v b := by
  have h2s := R2.two_s_mul_s
  funext b
  have hctrl : ∀ x : Bool, (∀ i, i ≠ t → Function.update b t x i = true) ↔
      (∀ i, i ≠ t → b i = true) := by
    intro x
    constructor
    · intro h i hi
      have hh := h i hi
      rwa [Function.update_noteq hi] at hh
    · intro h i hi
      rw [Function.update_noteq hi]
      exact h i hi
  have houter : hGate t (mcxGate t (hGate t v)) b =
      if b t then R2.s * (mcxGate t (hGate t v) (Function.update b t false)
          - mcxGate t (hGate t v) (Function.update b t true))
      else R2.s * (mcxGate t (hGate t v) (Function.update b t false)
          + mcxGate t (hGate t v) (Function.update b t true)) := by
    by_cases hb : b t
    · show (if b t = true then _ else _) = _
      rw [if_pos hb]
    · show (if b t = true then _ else _) = _
      rw [if_neg hb]
  have huT : hGate t v (Function.update b t true) =
      R2.s * (v (Function.update b t false) - v (Function.update b t true)) := by
    simp [hGate, Function.update_idem]
  have huF : hGate t v (Function.update b t false) =
      R2.s * (v (Function.update b t false) + v (Function.update b t true)) := by
    simp [hGate, Function.update_idem]
  by_cases hc : ∀ i, i ≠ t → b i = true
  · have hwF : mcxGate t (hGate t v) (Function.update b t false) =
        hGate t v (Function.update b t true) := by
      show (if ∀ i, i ≠ t → Function.update b t false i = true then _ else _) = _
      rw [if_pos ((hctrl false).mpr hc), Function.update_same, Bool.not_false,
        Function.update_idem]
    have hwT : mcxGate t (hGate t v) (Function.update b t true) =
        hGate t v (Function.update b t false) := by
      show (if ∀ i, i ≠ t → Function.update b t true i = true then _ else _) = _
      rw [if_pos ((hctrl true).mpr hc), Function.update_same, Bool.not_true,
        Function.update_idem]
    by_cases hb : b t
    · have hall : ∀ i, b i = true := by
        intro i
        by_cases hit : i = t
        · rw [hit]
          exact hb
        · exact hc i hit
      have hbT : Function.update b t true = b := by
        rw [← hb]
        exact Function.update_eq_self t b
      rw [houter, if_pos hb, hwF, hwT, huT, huF, if_pos hall, hbT]
      linear_combination (-(v b)) * h2s
    · have hnall : ¬(∀ i, b i = true) := by
        intro hall
        rw [hall t] at hb
        exact hb rfl
      have hbF : Function.update b t false = b := by
        rw [show false = b t by simp [hb]]
        exact Function.update_eq_self t b
      rw [houter, if_neg hb, hwF, hwT, huT, huF, if_neg hnall, hbF]
      linear_combination (v b) * h2s
  · have hnall : ¬(∀ i, b i = true) := by
      intro hall
      exact hc (fun i _ => hall i)
    have hwF : mcxGate t (hGate t v) (Function.update b t false) =
        hGate t v (Function.update b t false) := by
      show (if ∀ i, i ≠ t → Function.update b t false i = true then _ else _) = _
      rw [if_neg (fun h => hc ((hctrl false).mp h))]
    have hwT : mcxGate t (hGate t v) (Function.update b t true) =
        hGate t v (Function.update b t true) := by
      show (if ∀ i, i ≠ t → Function.update b t true i = true then _ else _) = _
      rw [if_neg (fun h => hc ((hctrl true).mp h))]
    have hinner : hGate t (hGate t v) b =
        if b t then R2.s * (hGate t v (Function.update b t false)
            - hGate t v (Function.update b t true))
        else R2.s * (hGate t v (Function.update b t false)
            + hGate t v (Function.update b t true)) := by
      by_cases hb : b t
      · show (if b t = true then _ else _) = _
        rw [if_pos hb]
      · show (if b t = true then _ else _) = _
        rw [if_neg hb]
    rw [houter, hwF, hwT, ← hinner, hGate_hGate, if_neg hnall]

/-! ### Relating the option-valued simulator to pure folds -/

theorem applyOps_append {n : ℕ} (l₁ l₂ : List Op) (v : State n) :
    applyOps n (l₁ ++ l₂) v = (applyOps n l₁ v).bind (applyOps n l₂) := by
  induction l₁ generalizing v with
  | nil => rfl
  | cons op l ih =>
    show (applyOp n op v).bind (applyOps n (l ++ l₂))
        = ((applyOp n op v).bind (applyOps n l)).bind (applyOps n l₂)
    cases applyOp n op v with
    | none => rfl
    | some u => exact ih u

theorem applyOp_wf {n : ℕ} {op : Op} (h : opWF n op) (v : State n) :
    applyOp n op v = some (applyOpP n op v) := by
  cases op with
  | h q =>
    have hq : q < n := h
    show (if hq : q < n then some (hGate ⟨q, hq⟩ v) else none) = some _
    rw [dif_pos hq]
    show some _ = some (if hq : q < n then hGate ⟨q, hq⟩ v else v)
    rw [dif_pos hq]
  | x q =>
    have hq : q < n := h
    show (if hq : q < n then some (xGate ⟨q, hq⟩ v) else none) = some _
    rw [dif_pos hq]
    show some _ = some (if hq : q < n then xGate ⟨q, hq⟩ v else v)
    rw [dif_pos hq]
  | mcx =>
    have hn : 1 < n := h
    show (if hn : 1 < n then some (mcxGate _ v) else none) = some _
    rw [dif_pos hn]
    show some _ = some (if hn : 1 < n then mcxGate _ v else v)
    rw [dif_pos hn]

theorem applyOps_wf {n : ℕ} {l : List Op} (h : ∀ op ∈ l, opWF n op) (v : State n) :
    applyOps n l v = some (opFold n l v) := by
  induction l generalizing v with
  | nil => rfl
  | cons op l ih =>
    show (applyOp n op v).bind (applyOps n l) = some (opFold n (op :: l) v)
    rw [applyOp_wf (h op (List.mem_cons_self op l)) v]
    show applyOps n l (applyOpP n op v) = some (opFold n l (applyOpP n op v))
    exact ih (fun o ho => h o (List.mem_cons_of_mem op ho)) _

theorem opFold_append {n : ℕ} (l₁ l₂ : List Op) (v : State n) :
    opFold n (l₁ ++ l₂) v = opFold n l₂ (opFold n l₁ v) :=
  List.foldl_append _ _ _ _

theorem applyOpP_h {n : ℕ} (q : Fin n) (v : State n) :
    applyOpP n (Op.h q.val) v = hGate q v := by
  show (if hq : q.val < n then hGate ⟨q.val, hq⟩ v else v) = hGate q v
  rw [dif_pos q.isLt]

theorem applyOpP_x {n : ℕ} (q : Fin n) (v : State n) :
    applyOpP n (Op.x q.val) v = xGate q v := by
  show (if hq : q.val < n then xGate ⟨q.val, hq⟩ v else v) = xGate q v
  rw [dif_pos q.isLt]

theorem opFold_map_h {n : ℕ} (l : List (Fin n)) (v : State n) :
    opFold n (l.map (fun i => Op.h i.val)) v = hFold l v := by
  induction l generalizing v with
  | nil => rfl
  | cons q l ih =>
    show opFold n (l.map (fun i => Op.h i.val)) (applyOpP n (Op.h q.val) v) = hFold l (hGate q v)
    rw [applyOpP_h]
    exact ih (hGate q v)

theorem opFold_map_x {n : ℕ} (l : List (Fin n)) (v : State n) :
    opFold n (l.map (fun i => Op.x i.val)) v = xFold l v := by
  induction l generalizing v with
  | nil => rfl
  | cons q l ih =>
    show opFold n (l.map (fun i => Op.x i.val)) (applyOpP n (Op.x q.val) v) = xFold l (xGate q v)
    rw [applyOpP_x]
    exact ih (xGate q v)

theorem range_map_h (n : ℕ) :
    (List.range n).map Op.h = (List.finRange n).map (fun i : Fin n => Op.h i.val) := by
  rw [List.finRange_eq_pmap_range, List.map_pmap, List.pmap_eq_map]

theorem range_map_x (n : ℕ) :
    (List.range n).map Op.x = (List.finRange n).map (fun i : Fin n => Op.x i.val) := by
  rw [List.finRange_eq_pmap_range, List.map_pmap, List.pmap_eq_map]

/-! ### Hadamard fold algebra -/

theorem hFold_hGate {n : ℕ} {q : Fin n} {l : List (Fin n)} (hq : q ∉ l) (v : State n) :
    hFold l (hGate q v) = hGate q (hFold l v) := by
  induction l generalizing v with
  | nil => rfl
  | cons p l ih =>
    have hqp : q ≠ p := by
      intro e
      exact hq (e ▸ List.mem_cons_self p l)
    have hql : q ∉ l := fun hmem => hq (List.mem_cons_of_mem p hmem)
    show hFold l (hGate p (hGate q v)) = hGate q (hFold l (hGate p v))
    rw [hGate_comm (Ne.symm hqp) v]
    exact ih hql (hGate p v)

theorem hFold_hFold {n : ℕ} {l : List (Fin n)} (hl : l.Nodup) (v : State n) :
    hFold l (hFold l v) = v := by
  induction l generalizing v with
  | nil => rfl
  | cons q l ih =>
    have hq : q ∉ l := (List.nodup_cons.mp hl).1
    have hl' : l.Nodup := (List.nodup_cons.mp hl).2
    show hFold l (hGate q (hFold l (hGate q v))) = v
    rw [← hFold_hGate hq (hGate q v), hGate_hGate]
    exact ih hl' v

theorem hGate_zero {n : ℕ} (q : Fin n) : hGate q (0 : State n) = 0 := by
  funext b
  by_cases hb : b q <;> simp [hGate, hb]

theorem hGate_add {n : ℕ} (q : Fin n) (u w : State n) :
    hGate q (u + w) = hGate q u + hGate q w := by
  funext b
  by_cases hb : b q <;> simp [hGate, hb] <;> ring

theorem hGate_smul {n : ℕ} (q : Fin n) (c : R2) (u : State n) :
    hGate q (c • u) = c • hGate q u := by
  funext b
  by_cases hb : b q <;> simp [hGate, hb, smul_eq_mul] <;> ring

theorem hFold_zero {n : ℕ} (l : List (Fin n)) : hFold l (0 : State n) = 0 := by
  induction l with
  | nil => rfl
  | cons q l ih =>
    show hFold l (hGate q 0) = 0
    rw [hGate_zero]
    exact ih

theorem hFold_add {n : ℕ} (l : List (Fin n)) (u w : State n) :
    hFold l (u + w) = hFold l u + hFold l w := by
  induction l generalizing u w with
  | nil => rfl
  | cons q l ih =>
    show hFold l (hGate q (u + w)) = _
    rw [hGate_add]
    exact ih _ _

theorem hFold_smul {n : ℕ} (l : List (Fin n)) (c : R2) (u : State n) :
    hFold l (c • u) = c • hFold l u := by
  induction l generalizing u with
  | nil => rfl
  | cons q l ih =>
    show hFold l (hGate q (c • u)) = _
    rw [hGate_smul]
    exact ih _

theorem hFold_sum {n : ℕ} {α : Type} [DecidableEq α] (l : List (Fin n)) (s : Finset α)
    (f : α → State n) :
    hFold l (∑ c ∈ s, f c) = ∑ c ∈ s, hFold l (f c) := by
  induction s using Finset.induction_on with
  | empty => simpa using hFold_zero l
  | insert hc ih =>
    rw [Finset.sum_insert hc, Finset.sum_insert hc, hFold_add, ih]

/-! ### The image of a basis state under a layer of Hadamards -/

theorem signProd_cons {n : ℕ} (q : Fin n) (L : List (Fin n)) (c bb : QBits n) :
    signProd (q :: L) c bb = (if bb q && c q then (-1 : R2) else 1) * signProd L c bb := by
  unfold signProd
  rw [List.map_cons, List.prod_cons]

theorem signProd_update {n : ℕ} {q : Fin n} {L : List (Fin n)} (hq : q ∉ L)
    (c bb : QBits n) (x : Bool) :
    signProd L c (Function.update bb q x) = signProd L c bb := by
  unfold signProd
  congr 1
  apply List.map_congr_left
  intro i hi
  have hiq : i ≠ q := fun e => hq (e ▸ hi)
  rw [Function.update_noteq hiq]

theorem hGate_kerG {n : ℕ} {q : Fin n} {L : List (Fin n)} (hq : q ∉ L) (c : QBits n) :
    hGate q (kerG L c) = kerG (q :: L) c := by
  funext b
  have hcond : ∀ x : Bool, (∀ i, i ∉ L → Function.update b q x i = c i) ↔
      (c q = x ∧ ∀ i, i ∉ (q :: L) → b i = c i) := by
    intro x
    constructor
    · intro h
      constructor
      · have hx := h q hq
        rw [Function.update_same] at hx
        exact hx.symm
      · intro i hi
        have hiq : i ≠ q := fun e => hi (e ▸ List.mem_cons_self q L)
        have hiL : i ∉ L := fun e => hi (List.mem_cons_of_mem q e)
        have hx := h i hiL
        rwa [Function.update_noteq hiq] at hx
    · rintro ⟨hcq, h⟩
      intro i hiL
      by_cases hiq : i = q
      · subst hiq
        rw [Function.update_same]
        exact hcq.symm
      · rw [Function.update_noteq hiq]
        refine h i ?_
        intro hmem
        rcases List.mem_cons.mp hmem with he | he
        · exact hiq he
        · exact hiL he
  have hKF : kerG L c (Function.update b q false) =
      R2.s ^ L.length * signProd L c b *
        (if c q = false ∧ (∀ i, i ∉ (q :: L) → b i = c i) then 1 else 0) := by
    unfold kerG
    rw [signProd_update hq]
    congr 1
    exact if_congr (hcond false) rfl rfl
  have hKT : kerG L c (Function.update b q true) =
      R2.s ^ L.length * signProd L c b *
        (if c q = true ∧ (∀ i, i ∉ (q :: L) → b i = c i) then 1 else 0) := by
    unfold kerG
    rw [signProd_update hq]
    congr 1
    exact if_congr (hcond true) rfl rfl
  have houter : hGate q (kerG L c) b =
      if b q then R2.s * (kerG L c (Function.update b q false)
          - kerG L c (Function.update b q true))
      else R2.s * (kerG L c (Function.update b q false)
          + kerG L c (Function.update b q true)) := by
    by_cases hb : b q
    · show (if b q = true then _ else _) = _
      rw [if_pos hb]
    · show (if b q = true then _ else _) = _
      rw [if_neg hb]
  have hR : kerG (q :: L) c b =
      R2.s ^ (L.length + 1) * ((if b q && c q then (-1 : R2) else 1) * signProd L c b) *
        (if (∀ i, i ∉ (q :: L) → b i = c i) then 1 else 0) := by
    unfold kerG
    rw [signProd_cons, List.length_cons]
  rw [houter, hKF, hKT, hR]
  by_cases hb : b q
  · rw [if_pos hb]
    by_cases hcq : c q
    · have hnF : ¬(c q = false ∧ ∀ i, i ∉ (q :: L) → b i = c i) := by
        rintro ⟨h1, _⟩
        rw [hcq] at h1
        exact absurd h1 (by simp)
      rw [if_neg hnF, if_pos (show (b q && c q) = true by rw [hb, hcq]; rfl)]
      by_cases hQ : ∀ i, i ∉ (q :: L) → b i = c i
      · rw [if_pos (show c q = true ∧ _ from ⟨hcq, hQ⟩), if_pos hQ]
        ring
      · rw [if_neg (show ¬(c q = true ∧ ∀ i, i ∉ (q :: L) → b i = c i) from fun h => hQ h.2),
          if_neg hQ]
        ring
    · have hcq' : c q = false := by simp [hcq]
      have hnT : ¬(c q = true ∧ ∀ i, i ∉ (q :: L) → b i = c i) := fun h => hcq h.1
      rw [if_neg hnT, if_neg (show ¬(b q && c q) = true by simp [hcq'])]
      by_cases hQ : ∀ i, i ∉ (q :: L) → b i = c i
      · rw [if_pos (show c q = false ∧ _ from ⟨hcq', hQ⟩), if_pos hQ]
        ring
      · rw [if_neg (show ¬(c q = false ∧ ∀ i, i ∉ (q :: L) → b i = c i) from fun h => hQ h.2),
          if_neg hQ]
        ring
  · rw [if_neg hb]
    have hb' : (b q && c q) = false := by simp [hb]
    rw [if_neg (show ¬(b q && c q) = true by simp [hb'])]
    by_cases hcq : c q
    · have hnF : ¬(c q = false ∧ ∀ i, i ∉ (q :: L) → b i = c i) := by
        rintro ⟨h1, _⟩
        rw [hcq] at h1
        exact absurd h1 (by simp)
      rw [if_neg hnF]
      by_cases hQ : ∀ i, i ∉ (q :: L) → b i = c i
      · rw [if_pos (show c q = true ∧ _ from ⟨hcq, hQ⟩), if_pos hQ]
        ring
      · rw [if_neg (show ¬(c q = true ∧ ∀ i, i ∉ (q :: L) → b i = c i) from fun h => hQ h.2),
          if_neg hQ]
        ring
    · have hcq' : c q = false := by simp [hcq]
      have hnT : ¬(c q = true ∧ ∀ i, i ∉ (q :: L) → b i = c i) := fun h => hcq h.1
      rw [if_neg hnT]
      by_cases hQ : ∀ i, i ∉ (q :: L) → b i = c i
      · rw [if_pos (show c q = false ∧ _ from ⟨hcq', hQ⟩), if_pos hQ]
        ring
      · rw [if_neg (show ¬(c q = false ∧ ∀ i, i ∉ (q :: L) → b i = c i) from fun h => hQ h.2),
          if_neg hQ]
        ring

theorem hFold_kerG {n : ℕ} {l L : List (Fin n)} (hdis : ∀ i ∈ l, i ∉ L) (hnd : l.Nodup)
    (c : QBits n) :
    hFold l (kerG L c) = kerG (l.reverse ++ L) c := by
  induction l generalizing L with
  | nil => rfl
  | cons q l ih =>
    show hFold l (hGate q (kerG L c)) = _
    rw [hGate_kerG (hdis q (List.mem_cons_self q l)) c]
    rw [ih (fun i hi => ?_) (List.nodup_cons.mp hnd).2]
    · rw [List.reverse_cons, List.append_assoc]
      rfl
    · intro hmem
      rcases List.mem_cons.mp hmem with he | he
      · exact (List.nodup_cons.mp hnd).1 (he ▸ hi)
      · exact hdis i (List.mem_cons_of_mem q hi) he

theorem basisState_eq_kerG {n : ℕ} (c : QBits n) : basisState c = kerG [] c := by
  funext b
  unfold basisState kerG signProd
  simp [funext_iff]

theorem hFold_basisState {n : ℕ} (c : QBits n) :
    hFold (List.finRange n) (basisState c) = kerG ((List.finRange n).reverse) c := by
  rw [basisState_eq_kerG,
    hFold_kerG (fun i _ => List.not_mem_nil i) (List.nodup_finRange n), List.append_nil]

theorem kerG_finRange_reverse_apply {n : ℕ} (c b : QBits n) :
    kerG ((List.finRange n).reverse) c b = R2.s ^ n * signProd ((List.finRange n).reverse) c b := by
  unfold kerG
  rw [if_pos, List.length_reverse, List.length_finRange, mul_one]
  intro i hi
  exact absurd (by simp [List.mem_reverse, List.mem_finRange]) hi

theorem hFold_basisState_apply_zero {n : ℕ} (c : QBits n) :
    hFold (List.finRange n) (basisState c) (fun _ => false) = R2.s ^ n := by
  rw [hFold_basisState, kerG_finRange_reverse_apply]
  have hsign : signProd ((List.finRange n).reverse) c (fun _ => false) = 1 := by
    unfold signProd
    apply List.prod_eq_one
    intro x hx
    rcases List.mem_map.mp hx with ⟨i, _, rfl⟩
    simp
  rw [hsign, mul_one]

theorem hFold_init {n : ℕ} :
    hFold (List.finRange n) (initState n) = fun _ => R2.s ^ n := by
  have hinit : initState n = basisState (fun _ => false : QBits n) := by
    funext b
    unfold initState basisState
    congr 1
    simp [funext_iff]
  rw [hinit, hFold_basisState]
  funext b
  rw [kerG_finRange_reverse_apply]
  have hsign : signProd ((List.finRange n).reverse) (fun _ => false) b = 1 := by
    unfold signProd
    apply List.prod_eq_one
    intro x hx
    rcases List.mem_map.mp hx with ⟨i, _, rfl⟩
    simp
  rw [hsign, mul_one]

theorem hFold_apply_zero {n : ℕ} (v : State n) :
    hFold (List.finRange n) v (fun _ => false) = R2.s ^ n * ∑ c : QBits n, v c := by
  have hv : v = ∑ c : QBits n, v c • basisState c := by
    funext b
    rw [Finset.sum_apply]
    simp [basisState, smul_eq_mul]
  conv_lhs => rw [hv]
  rw [hFold_sum]
  rw [Finset.sum_apply]
  have hterm : ∀ c : QBits n,
      hFold (List.finRange n) (v c • basisState c) (fun _ => false) = v c * R2.s ^ n := by
    intro c
    rw [hFold_smul]
    show (v c • hFold (List.finRange n) (basisState c)) (fun _ => false) = _
    rw [Pi.smul_apply, smul_eq_mul, hFold_basisState_apply_zero]
  rw [Finset.sum_congr rfl (fun c _ => hterm c), ← Finset.sum_mul]
  ring

/-! ### Layers of X gates as bit masks -/

theorem xlist_sem {n : ℕ} {l : List Op} (hx : ∀ op ∈ l, ∃ q, q < n ∧ op = Op.x q)
    (hnd : l.Nodup) (v : State n) :
    opFold n l v = fun b => v (fun i => if Op.x i.val ∈ l then !(b i) else b i) := by
  induction l generalizing v with
  | nil =>
    funext b
    show v b = v (fun i => if Op.x i.val ∈ ([] : List Op) then !(b i) else b i)
    congr 1
  | cons op l ih =>
    obtain ⟨q, hqn, rfl⟩ := hx op (List.mem_cons_self op l)
    have hnotin : Op.x q ∉ l := (List.nodup_cons.mp hnd).1
    show opFold n l (applyOpP n (Op.x q) v) = _
    have hstep : applyOpP n (Op.x q) v = xGate ⟨q, hqn⟩ v := by
      show (if hq : q < n then xGate ⟨q, hq⟩ v else v) = xGate ⟨q, hqn⟩ v
      rw [dif_pos hqn]
    rw [hstep, ih (fun o ho => hx o (List.mem_cons_of_mem _ ho)) (List.nodup_cons.mp hnd).2]
    funext b
    show xGate ⟨q, hqn⟩ v (fun i => if Op.x i.val ∈ l then !(b i) else b i) = _
    unfold xGate
    congr 1
    funext i
    by_cases hiq : i = (⟨q, hqn⟩ : Fin n)
    · subst hiq
      rw [Function.update_same]
      dsimp only
      rw [if_neg hnotin, if_pos (List.mem_cons_self _ _)]
    · rw [Function.update_noteq hiq]
      have hmem : (Op.x i.val ∈ Op.x q :: l) ↔ (Op.x i.val ∈ l) := by
        rw [List.mem_cons]
        constructor
        · rintro (he | he)
          · exfalso
            apply hiq
            apply Fin.ext
            injection he
          · exact he
        · exact Or.inr
      rw [if_congr hmem rfl rfl]

theorem xlayer_sem {n : ℕ} (v : State n) :
    opFold n ((List.range n).map Op.x) v = fun b => v (fun i => !(b i)) := by
  rw [xlist_sem (l := (List.range n).map Op.x) ?_ ?_ v]
  · funext b
    congr 1
    funext i
    rw [if_pos (List.mem_map.mpr ⟨i.val, List.mem_range.mpr i.isLt, rfl⟩)]
  · intro op hop
    rcases List.mem_map.mp hop with ⟨q, hq, rfl⟩
    exact ⟨q, List.mem_range.mp hq, rfl⟩
  · exact (List.nodup_range n).map (fun a b h => by injection h)

theorem tBits_length (ts : String) : (tBits ts).length = ts.length := by
  unfold tBits
  rw [List.length_map, List.length_reverse]
  rfl

theorem mem_xFlips {ts : String} {j : ℕ} :
    Op.x j ∈ xFlips ts ↔ (tBits ts).get? j = some false := by
  unfold xFlips
  rw [List.mem_filterMap]
  constructor
  · rintro ⟨⟨k, bit⟩, hp, hf⟩
    by_cases hbit : bit
    · rw [if_pos hbit] at hf
      exact Option.noConfusion hf
    · rw [if_neg hbit] at hf
      have hkj : k = j := by
        have := Option.some.inj hf
        injection this
      have hbf : bit = false := by simp at hbit; exact hbit
      have hget := List.mem_enum_iff_get?.mp hp
      rw [← hkj, ← hbf]
      exact hget
  · intro h
    refine ⟨(j, false), List.mem_enum_iff_get?.mpr h, rfl⟩

theorem xFlips_shape (ts : String) :
    ∀ op ∈ xFlips ts, ∃ q, q < (tBits ts).length ∧ op = Op.x q := by
  intro op hop
  unfold xFlips at hop
  rcases List.mem_filterMap.mp hop with ⟨⟨k, bit⟩, hp, hf⟩
  by_cases hbit : bit
  · rw [if_pos hbit] at hf
    exact absurd hf (by simp)
  · rw [if_neg hbit] at hf
    have hget := List.mem_enum_iff_get?.mp hp
    have hlt : k < (tBits ts).length := (List.get?_eq_some.mp hget).1  
    exact ⟨k, hlt, (Option.some.inj hf).symm⟩

theorem xFlips_nodup (ts : String) : (xFlips ts).Nodup := by
  unfold xFlips
  apply List.Nodup.filterMap
  · rintro ⟨k, bit⟩ ⟨k', bit'⟩ op hb hb'
    by_cases h1 : bit
    · rw [if_pos h1] at hb
      exact absurd hb (by simp)
    · by_cases h2 : bit'
      · rw [if_pos h2] at hb'
        exact absurd hb' (by simp)
      · rw [if_neg h1] at hb
        rw [if_neg h2] at hb'
        have e1 := Option.mem_def.mp hb
        have e2 := Option.mem_def.mp hb'
        have hkk : k = k' := by
          have := e1.trans e2.symm
          injection Option.some.inj this
        have hbb : bit = false := by simp at h1; exact h1
        have hbb' : bit' = false := by simp at h2; exact h2
        rw [hkk, hbb, hbb']
  · exact List.Nodup.of_map Prod.fst ((List.enum_map_fst _).symm ▸ List.nodup_range _)

theorem mem_xFlips_iff_tFn {n : ℕ} {ts : String} (hlen : ts.length = n) (i : Fin n) :
    (Op.x i.val ∈ xFlips ts) ↔ tFn n ts i = false := by
  rw [mem_xFlips]
  have hlt : i.val < (tBits ts).length := by
    rw [tBits_length, hlen]
    exact i.isLt
  rw [List.get?_eq_get hlt]
  unfold tFn
  rw [List.getD_eq_get?, List.get?_eq_get hlt]
  constructor
  · intro h
    have := Option.some.inj h
    rw [this]
    rfl
  · intro h
    have : (tBits ts).get ⟨i.val, hlt⟩ = false := h
    rw [this]

/-! ### Semantics of the oracle and diffusion gate lists -/

theorem mid_fold {n : ℕ} (hn : 1 < n) (v : State n) :
    opFold n [Op.h (n-1), Op.mcx, Op.h (n-1)] v =
      fun b => if ∀ i, b i = true then -(v b) else v b := by
  have hlt : n - 1 < n := Nat.sub_lt (Nat.zero_lt_of_lt hn) Nat.one_pos
  have h1 : ∀ u : State n, applyOpP n (Op.h (n-1)) u = hGate ⟨n-1, hlt⟩ u := by
    intro u
    show (if hq : n-1 < n then hGate ⟨n-1, hq⟩ u else u) = _
    rw [dif_pos hlt]
  have h2 : ∀ u : State n, applyOpP n Op.mcx u = mcxGate ⟨n-1, hlt⟩ u := by
    intro u
    show (if h : 1 < n then mcxGate ⟨n-1, Nat.sub_lt (Nat.zero_lt_of_lt h) Nat.one_pos⟩ u else u)
      = _
    rw [dif_pos hn]
  show applyOpP n (Op.h (n-1)) (applyOpP n Op.mcx (applyOpP n (Op.h (n-1)) v)) = _
  rw [h1, h2, h1, mcz_sem]

theorem initState_eq_basis {n : ℕ} : initState n = basisState (fun _ => false : QBits n) := by
  funext b
  unfold initState basisState
  congr 1
  simp [funext_iff]

theorem oracle_fold_sem {n : ℕ} {ts : String} (hn : 1 < n) (hlen : ts.length = n) (v : State n) :
    opFold n (apply_oracle n ts) v = fun b => if b = tFn n ts then -(v b) else v b := by
  have hxs : ∀ op ∈ xFlips ts, ∃ q, q < n ∧ op = Op.x q := by
    intro op hop
    obtain ⟨q, hq, rfl⟩ := xFlips_shape ts op hop
    rw [tBits_length, hlen] at hq
    exact ⟨q, hq, rfl⟩
  show opFold n (xFlips ts ++ [Op.h (n-1), Op.mcx, Op.h (n-1)] ++ xFlips ts) v = _
  rw [opFold_append, opFold_append]
  rw [xlist_sem hxs (xFlips_nodup ts) v]
  rw [mid_fold hn]
  rw [xlist_sem hxs (xFlips_nodup ts)]
  funext b
  dsimp only
  have hdouble : (fun i => if Op.x i.val ∈ xFlips ts then
      !(if Op.x i.val ∈ xFlips ts then !(b i) else b i)
      else (if Op.x i.val ∈ xFlips ts then !(b i) else b i)) = b := by
    funext i
    by_cases hm : Op.x i.val ∈ xFlips ts <;> simp [hm]
  have hcond : (∀ i, (if Op.x i.val ∈ xFlips ts then !(b i) else b i) = true) ↔
      b = tFn n ts := by
    rw [funext_iff]
    apply forall_congr'
    intro i
    by_cases hm : Op.x i.val ∈ xFlips ts
    · have hf : tFn n ts i = false := (mem_xFlips_iff_tFn hlen i).mp hm
      simp [hm, hf]
    · have ht : tFn n ts i = true := by
        have hnf := (mem_xFlips_iff_tFn hlen i).not.mp hm
        cases htf : tFn n ts i
        · exact absurd htf hnf
        · rfl
      simp [hm, ht]
  rw [hdouble]
  exact if_congr hcond rfl rfl

theorem xmidx_sem {n : ℕ} (hn : 1 < n) (u : State n) :
    opFold n ((List.range n).map Op.x ++ [Op.h (n-1), Op.mcx, Op.h (n-1)]
        ++ (List.range n).map Op.x) u
      = fun b => if (∀ i, b i = false) then -(u b) else u b := by
  rw [opFold_append, opFold_append, xlayer_sem, mid_fold hn, xlayer_sem]
  funext b
  dsimp only
  have hdn : (fun i => !!(b i)) = b := by
    funext i
    simp
  rw [hdn]
  refine if_congr ?_ rfl rfl
  constructor <;> intro h i <;> simpa using h i

theorem diffusion_fold_sem {n : ℕ} (hn : 1 < n) (v : State n) :
    opFold n (apply_diffusion n) v = fun b => v b - 2 * meanAmp n v := by
  have hsplit : apply_diffusion n = (List.range n).map Op.h
      ++ ((List.range n).map Op.x ++ [Op.h (n-1), Op.mcx, Op.h (n-1)]
        ++ (List.range n).map Op.x)
      ++ (List.range n).map Op.h := by
    unfold apply_diffusion
    simp [List.append_assoc]
  rw [hsplit, opFold_append, opFold_append]
  simp only [range_map_h, opFold_map_h]
  rw [xmidx_sem hn]
  have hflip : (fun b => if (∀ i, b i = false) then -(hFold (List.finRange n) v b)
        else hFold (List.finRange n) v b)
      = hFold (List.finRange n) v
        + (-(2 * hFold (List.finRange n) v (fun _ => false))) • basisState (fun _ => false) := by
    funext b
    rw [Pi.add_apply, Pi.smul_apply, smul_eq_mul]
    unfold basisState
    by_cases hz : ∀ i, b i = false
    · have hb : b = (fun _ => false) := funext fun i => hz i
      rw [if_pos hz, if_pos hb, hb]
      ring
    · have hb : ¬(b = fun _ => false) := fun e => hz (fun i => congrFun e i)
      rw [if_neg hz, if_neg hb]
      ring
  rw [hflip, hFold_add, hFold_smul, hFold_hFold (List.nodup_finRange n)]
  have hbz : hFold (List.finRange n) (basisState (fun _ => false : QBits n))
      = fun _ => R2.s ^ n := by
    rw [← initState_eq_basis]
    exact hFold_init
  rw [hbz, hFold_apply_zero]
  funext b
  rw [Pi.add_apply, Pi.smul_apply, smul_eq_mul]
  unfold meanAmp
  have hws : R2.s ^ n * R2.s ^ n = R2.ofRat (1 / 2 ^ n) := by
    rw [← pow_add, show n + n = 2 * n from by ring, R2.s_pow_two_mul]
    congr 1
    rw [div_pow, one_pow]
  linear_combination (-(2 * (∑ c : QBits n, v c))) * hws

/-! ### Conservation of total probability -/

theorem sum_pair {n : ℕ} (q : Fin n) (f : QBits n → R2) :
    ∑ b : QBits n, f b
      = ∑ b ∈ Finset.univ.filter (fun b : QBits n => b q = false),
          (f b + f (Function.update b q true)) := by
  rw [Finset.sum_add_distrib]
  rw [← Finset.sum_filter_add_sum_filter_not Finset.univ (fun b : QBits n => b q = false) f]
  congr 1
  refine Finset.sum_nbij' (fun b => Function.update b q false)
    (fun b => Function.update b q true) ?_ ?_ ?_ ?_ ?_
  · intro a _
    simp [Finset.mem_filter]
  · intro a _
    simp [Finset.mem_filter]
  · intro a ha
    dsimp only
    rw [Function.update_idem]
    have haq : a q = true := by
      have := (Finset.mem_filter.mp ha).2
      simpa using this
    rw [← haq]
    exact Function.update_eq_self q a
  · intro a ha
    dsimp only
    rw [Function.update_idem]
    have haq : a q = false := (Finset.mem_filter.mp ha).2
    rw [← haq]
    exact Function.update_eq_self q a
  · intro a ha
    dsimp only
    have haq : a q = true := by
      have := (Finset.mem_filter.mp ha).2
      simpa using this
    rw [Function.update_idem, ← haq, Function.update_eq_self q a]

theorem sumSq_hGate {n : ℕ} (q : Fin n) (v : State n) : sumSq n (hGate q v) = sumSq n v := by
  unfold sumSq
  rw [sum_pair q (fun b => hGate q v b * hGate q v b), sum_pair q (fun b => v b * v b)]
  apply Finset.sum_congr rfl
  intro b hb
  have hbq : b q = false := (Finset.mem_filter.mp hb).2
  have hF : hGate q v b = R2.s * (v (Function.update b q false) + v (Function.update b q true)) := by
    show (if b q = true then _ else _) = _
    rw [if_neg (by simp [hbq])]
  have hT : hGate q v (Function.update b q true) =
      R2.s * (v (Function.update b q false) - v (Function.update b q true)) := by
    show (if Function.update b q true q = true then _ else _) = _
    rw [if_pos (by rw [Function.update_same]), Function.update_idem, Function.update_idem]
  rw [hF, hT]
  have hbF : Function.update b q false = b := by
    rw [← hbq]
    exact Function.update_eq_self q b
  rw [hbF]
  have h2s := R2.two_s_mul_s
  linear_combination (v b * v b
    + v (Function.update b q true) * v (Function.update b q true)) * h2s

theorem sumSq_xGate {n : ℕ} (q : Fin n) (v : State n) : sumSq n (xGate q v) = sumSq n v := by
  unfold sumSq
  have hinv : Function.Involutive (fun b : QBits n => Function.update b q (!(b q))) := by
    intro b
    dsimp only
    rw [Function.update_same, Function.update_idem, Bool.not_not]
    exact Function.update_eq_self q b
  exact Equiv.sum_comp hinv.toPerm (fun c => v c * v c)

theorem sumSq_mcxGate {n : ℕ} (t : Fin n) (v : State n) : sumSq n (mcxGate t v) = sumSq n v := by
  unfold sumSq
  have hσ : Function.Involutive (fun b : QBits n =>
      if ∀ i, i ≠ t → b i = true then Function.update b t (!(b t)) else b) := by
    intro b
    dsimp only
    by_cases hc : ∀ i, i ≠ t → b i = true
    · rw [if_pos hc]
      have hc2 : ∀ i, i ≠ t → Function.update b t (!(b t)) i = true := by
        intro i hi
        rw [Function.update_noteq hi]
        exact hc i hi
      rw [if_pos hc2, Function.update_same, Function.update_idem, Bool.not_not]
      exact Function.update_eq_self t b
    · rw [if_neg hc, if_neg hc]
  have heq : ∀ b : QBits n, mcxGate t v b = v ((fun b : QBits n =>
      if ∀ i, i ≠ t → b i = true then Function.update b t (!(b t)) else b) b) := by
    intro b
    show (if ∀ i, i ≠ t → b i = true then _ else _) = _
    dsimp only
    by_cases hc : ∀ i, i ≠ t → b i = true
    · rw [if_pos hc, if_pos hc]
    · rw [if_neg hc, if_neg hc]
  calc ∑ b : QBits n, mcxGate t v b * mcxGate t v b
      = ∑ b : QBits n, (fun c => v c * v c) ((fun b : QBits n =>
          if ∀ i, i ≠ t → b i = true then Function.update b t (!(b t)) else b) b) := by
        refine Finset.sum_congr rfl fun b _ => ?_
        rw [heq b]
    _ = ∑ b : QBits n, v b * v b := Equiv.sum_comp hσ.toPerm (fun c => v c * v c)

theorem sumSq_applyOpP {n : ℕ} (op : Op) (v : State n) :
    sumSq n (applyOpP n op v) = sumSq n v := by
  cases op with
  | h q =>
    show sumSq n (if hq : q < n then hGate ⟨q, hq⟩ v else v) = _
    by_cases hq : q < n
    · rw [dif_pos hq, sumSq_hGate]
    · rw [dif_neg hq]
  | x q =>
    show sumSq n (if hq : q < n then xGate ⟨q, hq⟩ v else v) = _
    by_cases hq : q < n
    · rw [dif_pos hq, sumSq_xGate]
    · rw [dif_neg hq]
  | mcx =>
    show sumSq n
        (if hn : 1 < n then mcxGate ⟨n - 1, Nat.sub_lt (Nat.zero_lt_of_lt hn) Nat.one_pos⟩ v
         else v) = _
    by_cases hn : 1 < n
    · rw [dif_pos hn, sumSq_mcxGate]
    · rw [dif_neg hn]

theorem applyOp_some {n : ℕ} {op : Op} {v u : State n} (h : applyOp n op v = some u) :
    u = applyOpP n op v := by
  cases op with
  | h q =>
    by_cases hq : q < n
    · rw [show applyOp n (Op.h q) v
          = (if hq : q < n then some (hGate ⟨q, hq⟩ v) else none) from rfl, dif_pos hq] at h
      rw [show applyOpP n (Op.h q) v = (if hq : q < n then hGate ⟨q, hq⟩ v else v) from rfl,
        dif_pos hq]
      exact (Option.some.inj h).symm
    · rw [show applyOp n (Op.h q) v
          = (if hq : q < n then some (hGate ⟨q, hq⟩ v) else none) from rfl, dif_neg hq] at h
      exact absurd h (by simp)
  | x q =>
    by_cases hq : q < n
    · rw [show applyOp n (Op.x q) v
          = (if hq : q < n then some (xGate ⟨q, hq⟩ v) else none) from rfl, dif_pos hq] at h
      rw [show applyOpP n (Op.x q) v = (if hq : q < n then xGate ⟨q, hq⟩ v else v) from rfl,
        dif_pos hq]
      exact (Option.some.inj h).symm
    · rw [show applyOp n (Op.x q) v
          = (if hq : q < n then some (xGate ⟨q, hq⟩ v) else none) from rfl, dif_neg hq] at h
      exact absurd h (by simp)
  | mcx =>
    by_cases hn : 1 < n
    · rw [show applyOp n Op.mcx v
          = (if hn : 1 < n then
              some (mcxGate ⟨n - 1, Nat.sub_lt (Nat.zero_lt_of_lt hn) Nat.one_pos⟩ v) else none)
          from rfl, dif_pos hn] at h
      rw [show applyOpP n Op.mcx v
          = (if hn : 1 < n then mcxGate ⟨n - 1, Nat.sub_lt (Nat.zero_lt_of_lt hn) Nat.one_pos⟩ v
             else v) from rfl,
        dif_pos hn]
      exact (Option.some.inj h).symm
    · rw [show applyOp n Op.mcx v
          = (if hn : 1 < n then
              some (mcxGate ⟨n - 1, Nat.sub_lt (Nat.zero_lt_of_lt hn) Nat.one_pos⟩ v) else none)
          from rfl, dif_neg hn] at h
      exact absurd h (by simp)

theorem sumSq_applyOps {n : ℕ} {l : List Op} {v w : State n}
    (h : applyOps n l v = some w) : sumSq n w = sumSq n v := by
  induction l generalizing v with
  | nil =>
    have hvw := Option.some.inj h
    rw [← hvw]
  | cons op l ih =>
    have hbind : (applyOp n op v).bind (applyOps n l) = some w := h
    cases hop : applyOp n op v with
    | none =>
      rw [hop] at hbind
      exact absurd hbind (by simp)
    | some u =>
      rw [hop] at hbind
      have h2 : applyOps n l u = some w := hbind
      have hu := applyOp_some hop
      rw [ih h2, hu, sumSq_applyOpP]

theorem sumSq_initState {n : ℕ} : sumSq n (initState n) = 1 := by
  unfold sumSq
  rw [initState_eq_basis]
  unfold basisState
  have hterm : ∀ b : QBits n,
      (if b = (fun _ => false : QBits n) then (1 : R2) else 0)
        * (if b = (fun _ => false : QBits n) then 1 else 0)
      = if b = (fun _ => false : QBits n) then 1 else 0 := by
    intro b
    by_cases hb : b = (fun _ => false : QBits n) <;> simp [hb]
  rw [Finset.sum_congr rfl (fun b _ => hterm b)]
  rw [Finset.sum_ite_eq' Finset.univ (fun _ => false : QBits n) (fun _ => (1 : R2))]
  simp

/-! ### Well-formedness of the emitted circuits -/

theorem apply_oracle_wf {n : ℕ} {ts : String} (hn : 1 < n) (hlen : ts.length = n) :
    ∀ op ∈ apply_oracle n ts, opWF n op := by
  intro op hop
  have hx : ∀ o ∈ xFlips ts, opWF n o := by
    intro o ho
    obtain ⟨q, hq, rfl⟩ := xFlips_shape ts o ho
    rw [tBits_length, hlen] at hq
    exact hq
  rcases List.mem_append.mp hop with h1 | h2
  · rcases List.mem_append.mp h1 with hxf | hm
    · exact hx op hxf
    · simp only [List.mem_cons, List.not_mem_nil, or_false] at hm
      rcases hm with rfl | rfl | rfl
      · exact Nat.sub_lt (Nat.zero_lt_of_lt hn) Nat.one_pos
      · exact hn
      · exact Nat.sub_lt (Nat.zero_lt_of_lt hn) Nat.one_pos
  · exact hx op h2

theorem apply_diffusion_wf {n : ℕ} (hn : 1 < n) : ∀ op ∈ apply_diffusion n, opWF n op := by
  intro op hop
  unfold apply_diffusion at hop
  simp only [List.mem_append, List.mem_map, List.mem_range, List.mem_cons,
    List.not_mem_nil, or_false] at hop
  rcases hop with (((⟨q, hq, rfl⟩ | ⟨q, hq, rfl⟩) | (rfl | rfl | rfl)) | ⟨q, hq, rfl⟩) | ⟨q, hq, rfl⟩
  · exact hq
  · exact hq
  · exact Nat.sub_lt (Nat.zero_lt_of_lt hn) Nat.one_pos
  · exact hn
  · exact Nat.sub_lt (Nat.zero_lt_of_lt hn) Nat.one_pos
  · exact hq
  · exact hq

theorem run_grovers_wf {n : ℕ} {ts : String} {k : ℕ} (hn : 1 < n) (hlen : ts.length = n) :
    ∀ op ∈ run_grovers_algorithm n ts k, opWF n op := by
  intro op hop
  unfold run_grovers_algorithm at hop
  rcases List.mem_append.mp hop with h1 | h2
  · rcases List.mem_map.mp h1 with ⟨q, hq, rfl⟩
    exact List.mem_range.mp hq
  · rcases List.mem_flatten.mp h2 with ⟨l, hl, hop2⟩
    rw [List.eq_of_mem_replicate hl] at hop2
    rcases List.mem_append.mp hop2 with ho | hd
    · exact apply_oracle_wf hn hlen op ho
    · exact apply_diffusion_wf hn op hd

/-! ### The simulator on the oracle, diffusion and full circuits -/

theorem apply_oracle_sem {n : ℕ} {ts : String} (hn : 1 < n) (hlen : ts.length = n)
    (v : State n) :
    applyOps n (apply_oracle n ts) v
      = some (fun b => if b = tFn n ts then -(v b) else v b) := by
  rw [applyOps_wf (apply_oracle_wf hn hlen) v, oracle_fold_sem hn hlen]

theorem apply_diffusion_sem {n : ℕ} (hn : 1 < n) (v : State n) :
    applyOps n (apply_diffusion n) v = some (fun b => v b - 2 * meanAmp n v) := by
  rw [applyOps_wf (apply_diffusion_wf hn) v, diffusion_fold_sem hn]

theorem hlayer_sem {n : ℕ} (v : State n) :
    applyOps n ((List.range n).map Op.h) v = some (hFold (List.finRange n) v) := by
  have hwf : ∀ op ∈ (List.range n).map Op.h, opWF n op := by
    intro op hop
    rcases List.mem_map.mp hop with ⟨q, hq, rfl⟩
    exact List.mem_range.mp hq
  rw [applyOps_wf hwf v, range_map_h, opFold_map_h]

theorem R2.s_pow_sq (n : ℕ) : R2.s ^ n * R2.s ^ n = R2.ofRat (1 / 2 ^ n) := by
  rw [← pow_add, show n + n = 2 * n from by ring, R2.s_pow_two_mul]
  congr 1
  rw [div_pow, one_pow]

theorem grover_ops_zero {n : ℕ} {ts : String} :
    run_grovers_algorithm n ts 0 = (List.range n).map Op.h := by
  unfold run_grovers_algorithm
  simp

theorem grover_ops_one {n : ℕ} {ts : String} :
    run_grovers_algorithm n ts 1
      = (List.range n).map Op.h ++ apply_oracle n ts ++ apply_diffusion n := by
  unfold run_grovers_algorithm
  simp [List.append_assoc]

theorem grover_ops_two {n : ℕ} {ts : String} :
    run_grovers_algorithm n ts 2
      = (List.range n).map Op.h ++ apply_oracle n ts ++ apply_diffusion n
          ++ apply_oracle n ts ++ apply_diffusion n := by
  unfold run_grovers_algorithm
  simp [List.append_assoc]

theorem runState_zero_sem {n : ℕ} {ts : String} :
    runState n ts 0 = some (fun _ => R2.s ^ n) := by
  show applyOps n (run_grovers_algorithm n ts 0) (initState n) = _
  rw [grover_ops_zero, hlayer_sem, hFold_init]

theorem runState_one_sem {n : ℕ} {ts : String} (hn : 1 < n) (hlen : ts.length = n) :
    runState n ts 1 = some (fun b =>
      (if b = tFn n ts then -(R2.s ^ n) else R2.s ^ n)
        - 2 * meanAmp n (fun c => if c = tFn n ts then -(R2.s ^ n) else R2.s ^ n)) := by
  show applyOps n (run_grovers_algorithm n ts 1) (initState n) = _
  rw [grover_ops_one, applyOps_append, applyOps_append, hlayer_sem, hFold_init,
    Option.some_bind, apply_oracle_sem hn hlen, Option.some_bind, apply_diffusion_sem hn]

/-! ### The target index is the number the target string denotes -/

theorem foldl_bits_acc (L : List Char) : ∀ a : ℕ,
    L.foldl (fun acc c => 2 * acc + (if c = '1' then 1 else 0)) a
      = a * 2 ^ L.length + L.foldl (fun acc c => 2 * acc + (if c = '1' then 1 else 0)) 0 := by
  induction L with
  | nil =>
    intro a
    simp
  | cons c R ih =>
    intro a
    have h1 := ih (2 * a + (if c = '1' then 1 else 0))
    have h2 := ih (2 * 0 + (if c = '1' then 1 else 0))
    show R.foldl _ (2 * a + (if c = '1' then 1 else 0))
      = a * 2 ^ (c :: R).length + R.foldl _ (2 * 0 + (if c = '1' then 1 else 0))
    rw [h1, h2, List.length_cons]
    ring

theorem bits_sum_eq_foldl (L : List Char) :
    (∑ i : Fin L.length,
        if (L.reverse.map (fun c => c == '1')).getD i.val false then 2 ^ i.val else 0)
      = L.foldl (fun acc c => 2 * acc + (if c = '1' then 1 else 0)) 0 := by
  induction L with
  | nil => simp
  | cons c R ih =>
    have hmapc : (c :: R).reverse.map (fun x => x == '1')
        = R.reverse.map (fun x => x == '1') ++ [c == '1'] := by
      rw [List.reverse_cons, List.map_append]
      rfl
    have hlenA : (R.reverse.map (fun x => x == '1')).length = R.length := by
      rw [List.length_map, List.length_reverse]
    have hA : ∀ i : Fin R.length,
        ((c :: R).reverse.map (fun x => x == '1')).getD i.val false
          = (R.reverse.map (fun x => x == '1')).getD i.val false := by
      intro i
      rw [hmapc, List.getD_eq_get?, List.getD_eq_get?,
        List.get?_append (by rw [hlenA]; exact i.isLt)]
    have hB : ((c :: R).reverse.map (fun x => x == '1')).getD R.length false = (c == '1') := by
      rw [hmapc, List.getD_eq_get?, ← hlenA, List.get?_concat_length]
      rfl
    show (∑ i : Fin (R.length + 1),
        if ((c :: R).reverse.map (fun x => x == '1')).getD i.val false then 2 ^ i.val else 0)
      = (c :: R).foldl (fun acc x => 2 * acc + (if x = '1' then 1 else 0)) 0
    rw [Fin.sum_univ_castSucc (fun i : Fin (R.length + 1) =>
      if ((c :: R).reverse.map (fun x => x == '1')).getD i.val false then 2 ^ i.val else 0)]
    have hAsum : (∑ i : Fin R.length,
        if ((c :: R).reverse.map (fun x => x == '1')).getD (Fin.castSucc i).val false
          then 2 ^ (Fin.castSucc i).val else 0)
        = ∑ i : Fin R.length,
            if (R.reverse.map (fun x => x == '1')).getD i.val false then 2 ^ i.val else 0 := by
      refine Finset.sum_congr rfl fun i _ => ?_
      rw [show (Fin.castSucc i).val = i.val from rfl, hA i]
    rw [hAsum, ih]
    rw [show (Fin.last R.length).val = R.length from rfl, hB]
    have hfold := foldl_bits_acc R (2 * 0 + (if c = '1' then 1 else 0))
    show _ = R.foldl (fun acc x => 2 * acc + (if x = '1' then 1 else 0))
        (2 * 0 + (if c = '1' then 1 else 0))
    rw [hfold]
    by_cases hc : c = '1'
    · simp only [hc, if_pos rfl]
      have : ('1' == '1') = true := by decide
      rw [this]
      simp
      ring
    · have hcb : (c == '1') = false := by
        simp [hc]
      rw [hcb]
      simp [hc]

theorem bitsToIdx_tFn {n : ℕ} {ts : String} (hlen : ts.length = n) :
    bitsToIdx (tFn n ts) = stringIdx ts := by
  subst hlen
  show (∑ i : Fin ts.length, if (tBits ts).getD i.val false then 2 ^ i.val else 0) = _
  exact bits_sum_eq_foldl ts.data

/-! ### Helpers for the claim theorems -/

theorem R2.ofRat_neg (p : ℚ) : R2.ofRat (-p) = -(R2.ofRat p) := by
  refine congrArg₂ R2.mk ?_ ?_
  · show -p = -p
    rfl
  · show (0 : ℚ) = -0
    norm_num

theorem R2.three_eq_ofRat : (3 : R2) = R2.ofRat 3 := by
  refine congrArg₂ R2.mk ?_ ?_
  · show ((3 : ℕ) : ℚ) = 3
    norm_num
  · rfl

theorem R2.four_eq_ofRat : (4 : R2) = R2.ofRat 4 := by
  refine congrArg₂ R2.mk ?_ ?_
  · show ((4 : ℕ) : ℚ) = 4
    norm_num
  · rfl

theorem sum_ite_point {n : ℕ} (t : QBits n) (x y : R2) :
    (∑ c : QBits n, if c = t then x else y) = x + (((2 ^ n : ℕ) : R2) - 1) * y := by
  have hterm : ∀ c : QBits n, (if c = t then x else y) = y + (if c = t then x - y else 0) := by
    intro c
    by_cases hc : c = t
    · rw [if_pos hc, if_pos hc]
      ring
    · rw [if_neg hc, if_neg hc]
      ring
  rw [Finset.sum_congr rfl fun c _ => hterm c, Finset.sum_add_distrib, Finset.sum_const,
    Finset.sum_ite_eq' Finset.univ t (fun _ => x - y)]
  rw [Finset.card_univ, show Fintype.card (QBits n) = 2 ^ n from by simp [Fintype.card_fun]]
  rw [nsmul_eq_mul]
  simp only [Finset.mem_univ, if_pos]
  ring

theorem meanAmp_sub_const {n : ℕ} (v : State n) (m : R2) :
    meanAmp n (fun c => v c - 2 * m) = meanAmp n v - 2 * R2.ofRat (1 / 2 ^ n) * (((2 ^ n : ℕ) : R2)) * m := by
  unfold meanAmp
  rw [Finset.sum_sub_distrib, Finset.sum_const, Finset.card_univ,
    show Fintype.card (QBits n) = 2 ^ n from by simp [Fintype.card_fun], nsmul_eq_mul]
  ring

theorem cast_pow_mul_ofRat (n : ℕ) : ((2 ^ n : ℕ) : R2) * R2.ofRat (1 / 2 ^ n) = 1 := by
  rw [R2.ofRat_natCast, ← R2.ofRat_mul]
  rw [show ((2 ^ n : ℕ) : ℚ) * (1 / 2 ^ n) = 1 from by push_cast; field_simp]
  exact R2.ofRat_one

theorem run_11_one_state :
    runState 2 "11" 1
      = some (fun b => if b = (fun _ => true : QBits 2) then (-1 : R2) else 0) := by
  rw [runState_one_sem (by decide) (by decide)]
  congr 1
  funext b
  have htf : tFn 2 "11" = (fun _ => true : QBits 2) := by decide
  rw [htf]
  have hmean : meanAmp 2 (fun c : QBits 2 =>
      if c = (fun _ => true : QBits 2) then -(R2.s ^ 2) else R2.s ^ 2) = R2.ofRat (1 / 4) := by
    unfold meanAmp
    rw [sum_ite_point ((fun _ => true : QBits 2)) (-(R2.s ^ 2)) (R2.s ^ 2)]
    with_unfolding_all decide
  rw [hmean]
  by_cases hb : b = (fun _ => true : QBits 2)
  · rw [if_pos hb, if_pos hb]
    with_unfolding_all decide
  · rw [if_neg hb, if_neg hb]
    with_unfolding_all decide

/-! ### Claim theorems -/

/-- C1 counterexample: at n = 1 the oracle circuit does not negate the target
amplitude — it does not run at all: `qc.mcx(list(range(0)), 0)` passes an
empty control list, which Qiskit rejects with `CircuitError`, so the
simulation fails (`none`) instead of producing the sign-flipped state. -/
theorem C1_oracle_raises_n1 :
    applyOps 1 (apply_oracle 1 "1") (initState 1) = none
    ∧ applyOps 1 (apply_oracle 1 "1") (initState 1)
        ≠ some (fun b => if b = tFn 1 "1" then -(initState 1 b) else initState 1 b) := by
  refine ⟨by decide, ?_⟩
  intro h
  rw [show applyOps 1 (apply_oracle 1 "1") (initState 1) = none from by decide] at h
  exact Option.noConfusion h

/-- C1 (amended): for a valid binary target string of length `n ≥ 2`, the
oracle circuit built by `apply_oracle` runs without error and negates exactly
the amplitude of the marked basis state, leaving every other amplitude
unchanged; the marked label, read as an integer (qubit `i` = bit `i`), is the
number the target string denotes in binary with its first character most
significant.  (At n = 1 the `mcx` call has an empty control list and raises
`CircuitError`; see the counterexample.) -/
theorem C1_oracle_marks_target {n : ℕ} {ts : String} (hn : 1 < n)
    (hlen : ts.length = n) (hbin : isBinary ts) (v : State n) :
    applyOps n (apply_oracle n ts) v
        = some (fun b => if b = tFn n ts then -(v b) else v b)
      ∧ bitsToIdx (tFn n ts) = stringIdx ts :=
  ⟨apply_oracle_sem hn hlen v, bitsToIdx_tFn hlen⟩

theorem C1_oracle_marks_target_witness :
    (applyOps 3 (apply_oracle 3 "101") (initState 3)
        = some (fun b => if b = tFn 3 "101" then -(initState 3 b) else initState 3 b)
      ∧ bitsToIdx (tFn 3 "101") = stringIdx "101")
    ∧ stringIdx "101" = 5 :=
  ⟨C1_oracle_marks_target (by decide) (by decide) (by unfold isBinary; decide) (initState 3),
    by decide⟩

/-- C2 counterexample: on the two-qubit basis state |00⟩ the gate-level
diffusion circuit does not produce the reflection about the mean claimed by
the spec: the two differ by a global sign (e.g. at index 3 the circuit yields
−1/2 while the claimed closed form yields +1/2). -/
theorem C2_spec_counterexample :
    applyOps 2 (apply_diffusion 2) (basisState (fun _ => false : QBits 2))
      ≠ some (specReflect 2 (basisState (fun _ => false : QBits 2))) := by
  intro h
  rw [apply_diffusion_sem (by decide)] at h
  have h2 := congrFun (Option.some.inj h) (fun _ => true)
  have hz : basisState (fun _ => false : QBits 2) (fun _ => true) = 0 := by
    unfold basisState
    rw [if_neg]
    intro e
    exact Bool.noConfusion (congrFun e 0)
  have hmean : meanAmp 2 (basisState (fun _ => false : QBits 2)) = R2.ofRat (1 / 4) := by
    unfold meanAmp basisState
    rw [Finset.sum_ite_eq' Finset.univ (fun _ => false : QBits 2) (fun _ => (1 : R2))]
    rw [if_pos (Finset.mem_univ _), mul_one]
    norm_num
  unfold specReflect at h2
  rw [hz, hmean] at h2
  exact absurd h2 (by with_unfolding_all decide)

/-- C2 (amended): for every n ≥ 2, the state produced by the gate-level
`apply_diffusion` circuit is the pointwise NEGATION of the spec's closed
form: the circuit computes `amp[i] − 2*mean(amp)`, i.e.
`−(2*mean(amp) − amp[i])`, a reflection about the mean composed with a global
phase of −1.  (At n = 1 the circuit raises `CircuitError` at `qc.mcx([], 0)`
and produces nothing at all.) -/
theorem C2_diffusion_gate_sem {n : ℕ} (hn : 1 < n) (v : State n) :
    applyOps n (apply_diffusion n) v = some (fun b => -(specReflect n v b)) := by
  rw [apply_diffusion_sem hn v]
  congr 1
  funext b
  unfold specReflect
  ring

theorem C2_diffusion_gate_sem_witness :
    applyOps 2 (apply_diffusion 2) (initState 2)
      = some (fun b => -(specReflect 2 (initState 2) b)) :=
  C2_diffusion_gate_sem (by decide) (initState 2)

/-- C4: the circuit is norm-preserving: whenever a prefix of the full Grover
circuit runs successfully from |0…0⟩, the resulting state's squared
amplitudes sum to exactly 1. -/
theorem C4_norm_preserved {n : ℕ} {ts : String} {k : ℕ} (l₁ l₂ : List Op)
    (hsplit : run_grovers_algorithm n ts k = l₁ ++ l₂) {w : State n}
    (hrun : applyOps n l₁ (initState n) = some w) :
    sumSq n w = 1 := by
  rw [sumSq_applyOps hrun, sumSq_initState]

theorem C4_norm_preserved_witness :
    sumSq 2 (fun b : QBits 2 => if b = (fun _ => true : QBits 2) then (-1 : R2) else 0) = 1 :=
  C4_norm_preserved (run_grovers_algorithm 2 "11" 1) [] (List.append_nil _).symm
    run_11_one_state

/-- C5 counterexample: at n = 1 applying `apply_diffusion` twice does not
return the original vector — the very first diffusion already raises
`CircuitError` at `qc.mcx([], 0)` (empty control list), so the simulation
fails (`none`) instead of returning the input state. -/
theorem C5_diffusion_raises_n1 :
    applyOps 1 (apply_diffusion 1 ++ apply_diffusion 1) (initState 1)
      ≠ some (initState 1) := by
  intro h
  rw [show applyOps 1 (apply_diffusion 1 ++ apply_diffusion 1) (initState 1) = none
    from by decide] at h
  exact Option.noConfusion h

/-- C5 (amended): for every n ≥ 2 the diffusion circuit is an involution:
applying `apply_diffusion` twice in a row returns every state vector
unchanged.  (At n = 1 the circuit raises `CircuitError` at `qc.mcx([], 0)`
instead; see the counterexample.) -/
theorem C5_diffusion_involutive {n : ℕ} (hn : 1 < n) (v : State n) :
    applyOps n (apply_diffusion n ++ apply_diffusion n) v = some v := by
  rw [applyOps_append, apply_diffusion_sem hn, Option.some_bind, apply_diffusion_sem hn]
  congr 1
  funext b
  have hm : meanAmp n (fun c => v c - 2 * meanAmp n v)
      = meanAmp n v - 2 * R2.ofRat (1 / 2 ^ n) * (((2 ^ n : ℕ) : R2)) * meanAmp n v :=
    meanAmp_sub_const v (meanAmp n v)
  rw [hm]
  have hc : (((2 ^ n : ℕ) : R2)) * R2.ofRat (1 / 2 ^ n) = 1 := cast_pow_mul_ofRat n
  linear_combination (4 * meanAmp n v) * hc

theorem C5_diffusion_involutive_witness :
    applyOps 2 (apply_diffusion 2 ++ apply_diffusion 2) (initState 2) = some (initState 2) :=
  C5_diffusion_involutive (by decide) (initState 2)

/-- C8: an X gate applied twice on the same in-range qubit is the identity on
state vectors (Pauli-X is an involution). -/
theorem C8_pauliX_involutive {n q : ℕ} (hq : q < n) (v : State n) :
    applyOps n [Op.x q, Op.x q] v = some v := by
  have hwf : ∀ op ∈ [Op.x q, Op.x q], opWF n op := by
    intro op hop
    rcases List.mem_cons.mp hop with h | h2
    · rw [h]
      exact hq
    · rcases List.mem_cons.mp h2 with h | h3
      · rw [h]
        exact hq
      · exact absurd h3 (List.not_mem_nil op)
  rw [applyOps_wf hwf v]
  congr 1
  have hx : ∀ w : State n, applyOpP n (Op.x q) w = xGate ⟨q, hq⟩ w :=
    fun w => applyOpP_x ⟨q, hq⟩ w
  show applyOpP n (Op.x q) (applyOpP n (Op.x q) v) = v
  rw [hx, hx]
  exact xGate_xGate ⟨q, hq⟩ v

theorem C8_pauliX_involutive_witness :
    applyOps 2 [Op.x 0, Op.x 0] (initState 2) = some (initState 2) :=
  C8_pauliX_involutive (by decide) (initState 2)

/-- C9 counterexample: at n = 1 running `apply_oracle` twice does not restore
the original vector — the first oracle already raises `CircuitError` at
`qc.mcx([], 0)` (empty control list), so the simulation fails (`none`)
instead of returning the input state. -/
theorem C9_oracle_raises_n1 :
    applyOps 1 (apply_oracle 1 "1" ++ apply_oracle 1 "1") (initState 1)
      ≠ some (initState 1) := by
  intro h
  rw [show applyOps 1 (apply_oracle 1 "1" ++ apply_oracle 1 "1") (initState 1) = none
    from by decide] at h
  exact Option.noConfusion h

/-- C9 (amended): for every n ≥ 2 the oracle circuit is an involution:
running `apply_oracle` twice in a row on a valid binary target of length n
returns every state vector unchanged.  (At n = 1 the oracle raises
`CircuitError` at `qc.mcx([], 0)` instead; see the counterexample.) -/
theorem C9_oracle_involutive {n : ℕ} {ts : String} (hn : 1 < n)
    (hlen : ts.length = n) (hbin : isBinary ts) (v : State n) :
    applyOps n (apply_oracle n ts ++ apply_oracle n ts) v = some v := by
  rw [applyOps_append, apply_oracle_sem hn hlen, Option.some_bind,
    apply_oracle_sem hn hlen]
  congr 1
  funext b
  by_cases hb : b = tFn n ts <;> simp [hb]

theorem C9_oracle_involutive_witness :
    applyOps 2 (apply_oracle 2 "10" ++ apply_oracle 2 "10") (initState 2) = some (initState 2) :=
  C9_oracle_involutive (by decide) (by decide) (by unfold isBinary; decide) (initState 2)

/-- C10: with zero iterations the circuit is exactly the initial Hadamard
layer, the run succeeds, every amplitude of the resulting state is
(1/√2)^n, and its square is exactly 1/2^n — the uniform distribution over
all 2^n outcomes. -/
theorem C10_zero_iterations (n : ℕ) (ts : String) :
    run_grovers_algorithm n ts 0 = (List.range n).map Op.h
    ∧ runState n ts 0 = some (fun _ => R2.s ^ n)
    ∧ R2.s ^ n * R2.s ^ n = R2.ofRat (1 / 2 ^ n) :=
  ⟨grover_ops_zero, runState_zero_sem, R2.s_pow_sq n⟩

/-- C3: two-qubit demonstration with target "11": after one Grover iteration
the state is exactly −|11⟩, so measuring gives "11" with probability 1; after
two iterations the amplitude of |11⟩ is 1/2 and each other amplitude is −1/2,
so every outcome has probability exactly 1/4. -/
theorem C3_two_qubit_oscillation :
    (∃ w, runState 2 "11" 1 = some w
      ∧ (∀ b, w b = if b = (fun _ => true : QBits 2) then (-1 : R2) else 0)
      ∧ w (fun _ => true) * w (fun _ => true) = 1)
    ∧ (∃ w, runState 2 "11" 2 = some w
      ∧ (∀ b, w b = if b = (fun _ => true : QBits 2) then R2.ofRat (1 / 2)
            else R2.ofRat (-(1 / 2)))
      ∧ ∀ b, w b * w b = R2.ofRat (1 / 4)) := by
  have htf : tFn 2 "11" = (fun _ => true : QBits 2) := by decide
  have hmean : meanAmp 2
      (fun c : QBits 2 => if c = (fun _ => true : QBits 2) then (1 : R2) else 0)
      = R2.ofRat (1 / 4) := by
    unfold meanAmp
    rw [sum_ite_point ((fun _ => true : QBits 2)) (1 : R2) 0]
    with_unfolding_all decide
  have hstep2 : applyOps 2 (apply_oracle 2 "11")
      (fun b : QBits 2 => if b = (fun _ => true : QBits 2) then (-1 : R2) else 0)
      = some (fun b : QBits 2 => if b = (fun _ => true : QBits 2) then (1 : R2) else 0) := by
    rw [apply_oracle_sem (by decide) (by decide)]
    congr 1
    funext b
    rw [htf]
    by_cases hb : b = (fun _ => true : QBits 2) <;> simp [hb]
  have hstep3 : applyOps 2 (apply_diffusion 2)
      (fun b : QBits 2 => if b = (fun _ => true : QBits 2) then (1 : R2) else 0)
      = some (fun b : QBits 2 => if b = (fun _ => true : QBits 2) then R2.ofRat (1 / 2)
          else R2.ofRat (-(1 / 2))) := by
    rw [apply_diffusion_sem (by decide)]
    congr 1
    funext b
    by_cases hb : b = (fun _ => true : QBits 2) <;> simp [hmean, hb] <;>
      with_unfolding_all decide
  have hsplit2 : run_grovers_algorithm 2 "11" 2
      = run_grovers_algorithm 2 "11" 1 ++ (apply_oracle 2 "11" ++ apply_diffusion 2) := by
    rw [grover_ops_two, grover_ops_one]
    simp [List.append_assoc]
  have hrun2 : runState 2 "11" 2
      = some (fun b : QBits 2 => if b = (fun _ => true : QBits 2) then R2.ofRat (1 / 2)
          else R2.ofRat (-(1 / 2))) := by
    show applyOps 2 (run_grovers_algorithm 2 "11" 2) (initState 2) = _
    rw [hsplit2, applyOps_append]
    rw [show applyOps 2 (run_grovers_algorithm 2 "11" 1) (initState 2)
        = some (fun b : QBits 2 => if b = (fun _ => true : QBits 2) then (-1 : R2) else 0)
      from run_11_one_state]
    rw [Option.some_bind, applyOps_append, hstep2, Option.some_bind, hstep3]
  refine ⟨⟨_, run_11_one_state, fun b => rfl, ?_⟩, ⟨_, hrun2, fun b => rfl, ?_⟩⟩
  · with_unfolding_all decide
  · intro b
    by_cases hb : b = (fun _ => true : QBits 2)
    · rw [hb]
      with_unfolding_all decide
    · rw [if_neg hb]
      with_unfolding_all decide

/-- C6 counterexample: at n = 1 with target "1" the claim fails because the
run never produces a final state at all: `run_grovers_algorithm(1, "1", 1)`
raises `CircuitError` at `qc.mcx([], 0)` (empty control list) inside the
oracle, so there is no amplitude whose squared magnitude could exceed the
baseline 1/2^1. -/
theorem C6_strict_gain_counterexample :
    runState 1 "1" 1 = none
    ∧ ¬ (∃ w, runState 1 "1" 1 = some w
        ∧ (w (tFn 1 "1") * w (tFn 1 "1")).rb = 0
        ∧ (1 : ℚ) / 2 ^ 1 < (w (tFn 1 "1") * w (tFn 1 "1")).ra) := by
  refine ⟨by decide, ?_⟩
  rintro ⟨w, hw, hb0, hlt⟩
  rw [show runState 1 "1" 1 = none from by decide] at hw
  exact Option.noConfusion hw

/-- C6 (amended): for every n ≥ 2 and valid n-bit binary target, one Grover
iteration succeeds and the probability of measuring the target — the squared
target amplitude, a rational number — is strictly greater than the uniform
probability 1/2^n.  (At n = 1 the claim fails for a different reason: the run
raises `CircuitError` at `qc.mcx([], 0)` and produces no state; see the
counterexample.) -/
theorem C6_strict_gain {n : ℕ} {ts : String} (hn2 : 2 ≤ n) (hlen : ts.length = n)
    (hbin : isBinary ts) :
    ∃ w, runState n ts 1 = some w
      ∧ (w (tFn n ts) * w (tFn n ts)).rb = 0
      ∧ (1 : ℚ) / 2 ^ n < (w (tFn n ts) * w (tFn n ts)).ra := by
  have hn : 1 < n := hn2
  have hcast : ((2 ^ n : ℕ) : R2) = R2.ofRat ((2 : ℚ) ^ n) := by
    rw [R2.ofRat_natCast]
    congr 1
    push_cast
    ring
  have hprod : R2.ofRat (1 / 2 ^ n) * R2.ofRat ((2 : ℚ) ^ n) = 1 := by
    rw [← R2.ofRat_mul, show (1 / 2 ^ n : ℚ) * (2 : ℚ) ^ n = 1 from by field_simp]
    exact R2.ofRat_one
  have hC : R2.ofRat (-((3 * 2 ^ n - 4) / 2 ^ n)) = -3 + 4 * R2.ofRat (1 / 2 ^ n) := by
    rw [R2.three_eq_ofRat, R2.four_eq_ofRat, ← R2.ofRat_mul, ← R2.ofRat_neg, ← R2.ofRat_add]
    congr 1
    field_simp
    ring
  have hval : (fun b => (if b = tFn n ts then -(R2.s ^ n) else R2.s ^ n)
        - 2 * meanAmp n (fun c => if c = tFn n ts then -(R2.s ^ n) else R2.s ^ n)) (tFn n ts)
      = R2.ofRat (-((3 * 2 ^ n - 4) / 2 ^ n)) * R2.s ^ n := by
    show (if tFn n ts = tFn n ts then -(R2.s ^ n) else R2.s ^ n)
        - 2 * meanAmp n (fun c => if c = tFn n ts then -(R2.s ^ n) else R2.s ^ n)
      = R2.ofRat (-((3 * 2 ^ n - 4) / 2 ^ n)) * R2.s ^ n
    rw [if_pos rfl]
    unfold meanAmp
    rw [sum_ite_point (tFn n ts) (-(R2.s ^ n)) (R2.s ^ n), hcast, hC]
    linear_combination (-(2 * R2.s ^ n)) * hprod
  have hsq : (fun b => (if b = tFn n ts then -(R2.s ^ n) else R2.s ^ n)
        - 2 * meanAmp n (fun c => if c = tFn n ts then -(R2.s ^ n) else R2.s ^ n)) (tFn n ts)
      * (fun b => (if b = tFn n ts then -(R2.s ^ n) else R2.s ^ n)
        - 2 * meanAmp n (fun c => if c = tFn n ts then -(R2.s ^ n) else R2.s ^ n)) (tFn n ts)
      = R2.ofRat (-((3 * 2 ^ n - 4) / 2 ^ n) * -((3 * 2 ^ n - 4) / 2 ^ n) * (1 / 2 ^ n)) := by
    rw [hval]
    rw [show R2.ofRat (-((3 * 2 ^ n - 4) / 2 ^ n)) * R2.s ^ n
          * (R2.ofRat (-((3 * 2 ^ n - 4) / 2 ^ n)) * R2.s ^ n)
        = R2.ofRat (-((3 * 2 ^ n - 4) / 2 ^ n)) * R2.ofRat (-((3 * 2 ^ n - 4) / 2 ^ n))
          * (R2.s ^ n * R2.s ^ n) from by ring]
    rw [R2.s_pow_sq n, ← R2.ofRat_mul, ← R2.ofRat_mul]
  refine ⟨(fun b => (if b = tFn n ts then -(R2.s ^ n) else R2.s ^ n)
      - 2 * meanAmp n (fun c => if c = tFn n ts then -(R2.s ^ n) else R2.s ^ n)),
    runState_one_sem hn hlen, ?_, ?_⟩
  · rw [hsq]
    rfl
  · rw [hsq]
    show (1 : ℚ) / 2 ^ n
      < -((3 * 2 ^ n - 4) / 2 ^ n) * -((3 * 2 ^ n - 4) / 2 ^ n) * (1 / 2 ^ n)
    have hp : (0 : ℚ) < 2 ^ n := by positivity
    have h4 : (4 : ℚ) ≤ 2 ^ n := by
      calc (4 : ℚ) = 2 ^ 2 := by norm_num
      _ ≤ 2 ^ n := pow_le_pow_right (by norm_num) hn2
    have h1 : (2 : ℚ) ≤ (3 * 2 ^ n - 4) / 2 ^ n := by
      rw [le_div_iff hp]
      nlinarith
    calc (1 : ℚ) / 2 ^ n = 1 * (1 / 2 ^ n) := by ring
    _ < (-((3 * 2 ^ n - 4) / 2 ^ n) * -((3 * 2 ^ n - 4) / 2 ^ n)) * (1 / 2 ^ n) :=
        mul_lt_mul_of_pos_right (by nlinarith) (by positivity)
    _ = -((3 * 2 ^ n - 4) / 2 ^ n) * -((3 * 2 ^ n - 4) / 2 ^ n) * (1 / 2 ^ n) := by ring

theorem C6_strict_gain_witness :
    ∃ w, runState 2 "11" 1 = some w
      ∧ (w (tFn 2 "11") * w (tFn 2 "11")).rb = 0
      ∧ (1 : ℚ) / 2 ^ 2 < (w (tFn 2 "11") * w (tFn 2 "11")).ra :=
  C6_strict_gain (by decide) (by decide) (by unfold isBinary; decide)

/-- C7: contrary to the spec, a target string shorter than the register raises
no error: with n = 2 the one-character target "1" yields exactly the circuit
and final state of target "11" (the short string is silently treated as
"11"), and the run succeeds. -/
theorem C7_no_length_validation :
    run_grovers_algorithm 2 "1" 1 = run_grovers_algorithm 2 "11" 1
    ∧ runState 2 "1" 1 = runState 2 "11" 1
    ∧ (runState 2 "1" 1).isSome = true := by
  have heq : run_grovers_algorithm 2 "1" 1 = run_grovers_algorithm 2 "11" 1 := by decide
  have hrs : runState 2 "1" 1 = runState 2 "11" 1 := by
    show applyOps 2 (run_grovers_algorithm 2 "1" 1) (initState 2)
      = applyOps 2 (run_grovers_algorithm 2 "11" 1) (initState 2)
    rw [heq]
  refine ⟨heq, hrs, ?_⟩
  rw [hrs, run_11_one_state]
  rfl
